import Mathlib

/-!
# Pingo: discovery reconciliation, probing and aggregation

A shallow embedding of `pingo.go` (functions `scan`, `probe`, `collect`,
`publish`) and the properties of its reconciliation loop, its probe counters,
its aggregator and its shared report board.

Conventions of the embedding.

* A Go `map[string]V` is an association list with pairwise distinct keys.  The
  list order has no meaning: the order in which `range` visits a map is left
  open by Go and is an input of the model (`rangeOrder`).
* A `chan struct{}` made by `make` is identified by the number of channels the
  scan goroutine had made before it; a goroutine started by `go probe(...)` is
  identified by the `Kill` channel of the `Probe` it was handed.
* Go `int` and `int64` counters are unbounded integers: a counter grows by one
  per tick of a ticker whose period is at least two seconds, or by the
  milliseconds elapsed during one attempt, so it stays below the machine bound.
* Everything the environment decides (the outcome of an HTTP request, of a JSON
  decode, of a TCP dial, elapsed times, scheduling) is an input.
-/

namespace Pingo

/-! ## Data model -/

/-- Node is basic data about a target host. -/
structure Node where
  Name : String
  Target : String
deriving DecidableEq, Repr

/-- Probe is the package handed from scan to probe: the Node, the Kill channel
(identified by its allocation number) and the Seen flag. -/
structure Probe where
  Node : Node
  Kill : Nat
  Seen : Bool
deriving DecidableEq, Repr

/-- Metric is the package sent from probe (and scan) to collect. -/
structure Metric where
  Node : Node
  Reply : Int
  Lost : Int
  Time : Int
deriving DecidableEq, Repr

/-- One element of `Status.Addresses` of an item of the api reply.  The Go field
`Type` is `Kind` here (`Type` is a reserved word). -/
structure NodeAddress where
  Kind : String
  Address : String
deriving DecidableEq, Repr

/-- One element of `NodeList.Items`: `Status.Addresses` and
`Status.DaemonEndpoints.KubeletEndpoint.Port`. -/
structure NodeItem where
  Addresses : List NodeAddress
  Port : Int
deriving DecidableEq, Repr

/-- NodeList holds the json values of an api reply. -/
structure NodeList where
  Items : List NodeItem
deriving DecidableEq, Repr

/-! ## Go maps with string keys -/

/-- The value stored under `key`, if any (`v, ok := m[key]`). -/
def mapGet {V : Type} : List (String × V) → String → Option V
  | [], _ => none
  | e :: rest, key => if e.1 = key then some e.2 else mapGet rest key

/-- Removal of a key (`delete(m, key)`). -/
def mapDelete {V : Type} (m : List (String × V)) (key : String) : List (String × V) :=
  m.filter (fun e => e.1 ≠ key)

/-- Assignment (`m[key] = v`): replaces the value of a present key, adds the
key otherwise. -/
def mapSet {V : Type} (m : List (String × V)) (key : String) (v : V) : List (String × V) :=
  if (mapGet m key).isSome then m.map (fun e => if e.1 = key then (key, v) else e)
  else m ++ [(key, v)]

/-- The keys of a map. -/
def mapKeys {V : Type} (m : List (String × V)) : List String := m.map Prod.fst

/-- An order in which `range` may visit the keys of `m`.  Go leaves the order
open; the model lets an arbitrary list `pri` choose it: the keys of `m` named in
`pri` come first, in the order of `pri` (a key named twice counts at its last
place), then the others.  Every enumeration of the keys is `rangeOrder pri m`
for `pri` that enumeration itself. -/
def rangeOrder {V : Type} (pri : List String) (m : List (String × V)) : List String :=
  (pri.filter (fun k => k ∈ mapKeys m)).dedup ++ (mapKeys m).filter (fun k => k ∉ pri)

/-! ## scan -/

/-- The registry `known` of scan: `map[string]*Probe`. -/
abbrev Registry := List (String × Probe)

/-- The two actions of scan on probe goroutines: `go probe(..., p)` and the send
`p.Kill <- struct{}{}`; each records the Node and the Kill channel of `p`. -/
inductive Event where
  | start (node : Node) (kill : Nat)
  | cancel (node : Node) (kill : Nat)
deriving DecidableEq, Repr

/-- An event of scan together with the registry as it stands once the statement
pair performing the event is done: after `delete(known, ...)` for a cancel, after
`known[...] = &Probe{...}; go probe(...)` for a start. -/
structure Obs where
  event : Event
  known : Registry
deriving DecidableEq, Repr

/-- The Node built from one item (lines 151-161): the last `Hostname` address is
the name, the last `InternalIP` address joined with the kubelet port is the
target; other address types are only logged. -/
def itemNode (item : NodeItem) : Node :=
  item.Addresses.foldl
    (fun node addr =>
      if addr.Kind = "Hostname" then { node with Name := addr.Address }
      else if addr.Kind = "InternalIP" then
        { node with Target := addr.Address ++ ":" ++ toString item.Port }
      else node)
    ⟨"", ""⟩

/-- The body of the per-item loop for one Node (lines 162-177).  Returns the
registry, the number of channels made, and the events performed. -/
def scanItem (known : Registry) (chans : Nat) (node : Node) : (Registry × Nat) × List Obs :=
  -- val, exists := known[node.Name]; if exists && val.Node != node { kill; delete; exists = false }
  let s1 : (Registry × List Obs) × Bool :=
    match mapGet known node.Name with
    | some val =>
      if val.Node ≠ node then
        let k := mapDelete known node.Name
        ((k, [⟨Event.cancel val.Node val.Kill, k⟩]), false)
      else ((known, []), true)
    | none => ((known, []), false)
  -- if !exists { known[node.Name] = &Probe{...}; go probe(...) }
  let s2 : (Registry × Nat) × List Obs :=
    if s1.2 then ((s1.1.1, chans), s1.1.2)
    else
      let k := mapSet s1.1.1 node.Name ⟨node, chans, false⟩
      ((k, chans + 1), s1.1.2 ++ [⟨Event.start node chans, k⟩])
  -- known[node.Name].Seen = true
  let k3 : Registry :=
    match mapGet s2.1.1 node.Name with
    | some p => mapSet s2.1.1 node.Name { p with Seen := true }
    | none => s2.1.1
  ((k3, s2.1.2), s2.2)

/-- The per-item loop (lines 150-178) over the Nodes of the items. -/
def scanItems (known : Registry) (chans : Nat) : List Node → (Registry × Nat) × List Obs
  | [] => ((known, chans), [])
  | node :: rest =>
    let r := scanItem known chans node
    let r2 := scanItems r.1.1 r.1.2 rest
    (r2.1, r.2 ++ r2.2)

/-- The body of the sweep for one key (lines 181-187).  `range` only yields keys
that are in the map, so the last case is never taken. -/
def sweepKey (known : Registry) (key : String) : Registry × List Obs :=
  match mapGet known key with
  | some p =>
    if p.Seen then (mapSet known key { p with Seen := false }, [])
    else
      let k := mapDelete known key
      (k, [⟨Event.cancel p.Node p.Kill, k⟩])
  | none => (known, [])

/-- The sweep visiting the keys in the given order. -/
def sweepKeys (known : Registry) : List String → Registry × List Obs
  | [] => (known, [])
  | key :: rest =>
    let r := sweepKey known key
    let r2 := sweepKeys r.1 rest
    (r2.1, r.2 ++ r2.2)

/-- The sweep over `known` (lines 180-188). -/
def sweep (known : Registry) (pri : List String) : Registry × List Obs :=
  sweepKeys known (rangeOrder pri known)

/-- The reconciliation part of scan (lines 150-188): the per-item loop followed
by the sweep. -/
def reconcile (known : Registry) (chans : Nat) (items : List NodeItem) (pri : List String) :
    (Registry × Nat) × List Obs :=
  let r := scanItems known chans (items.map itemNode)
  let s := sweep r.1.1 pri
  ((s.1, r.1.2), r.2 ++ s.2)

/-- What `client.Do` returned when it returned no error: the status code and the
result of decoding the body (`none` when `Decode` fails). -/
structure HttpReply where
  StatusCode : Int
  body : Option NodeList
deriving DecidableEq, Repr

/-- The environment of one scan cycle: the result of `client.Do` (`none` for an
error), the value of `time.Since(start).Milliseconds()`, and the order of the
`range` over `known`. -/
structure Cycle where
  reply : Option HttpReply
  elapsed : Int
  pri : List String

/-- The state scan keeps across cycles: its own metric, the registry and the
number of Kill channels made. -/
structure ScanState where
  metric : Metric
  known : Registry
  chans : Nat
deriving DecidableEq, Repr

/-- The result of one scan cycle: the new state, the metrics sent on `metrics`
and the events performed. -/
structure CycleOut where
  state : ScanState
  sent : List Metric
  trace : List Obs

/-- The state of scan before its first cycle (lines 113-122). -/
def scanInit (api : String) : ScanState :=
  { metric := ⟨⟨"API", api⟩, 0, 0, 0⟩, known := [], chans := 0 }

/-- One iteration of the loop of scan (lines 124-189). -/
def scanCycle (st : ScanState) (c : Cycle) : CycleOut :=
  match c.reply with
  | none =>
    let m := { st.metric with Lost := st.metric.Lost + 1 }
    { state := { st with metric := m }, sent := [m], trace := [] }
  | some reply =>
    if reply.StatusCode ≠ 200 then
      let m := { st.metric with Lost := st.metric.Lost + 1 }
      { state := { st with metric := m }, sent := [m], trace := [] }
    else
      let m := { st.metric with Time := st.metric.Time + c.elapsed, Reply := st.metric.Reply + 1 }
      match reply.body with
      | none => { state := { st with metric := m }, sent := [m], trace := [] }
      | some nodes =>
        let r := reconcile st.known st.chans nodes.Items c.pri
        { state := { metric := m, known := r.1.1, chans := r.1.2 }, sent := [m], trace := r.2 }

/-- The state of scan after a sequence of cycles. -/
def scanRun (api : String) (cycles : List Cycle) : ScanState :=
  cycles.foldl (fun st c => (scanCycle st c).state) (scanInit api)

/-- The events of a sequence of cycles, in order, each with its registry. -/
def scanTrace (st : ScanState) : List Cycle → List Obs
  | [] => []
  | c :: rest => (scanCycle st c).trace ++ scanTrace (scanCycle st c).state rest

/-- The metrics scan sends on `metrics` over a sequence of cycles, in order. -/
def scanSent (st : ScanState) : List Cycle → List Metric
  | [] => []
  | c :: rest => (scanCycle st c).sent ++ scanSent (scanCycle st c).state rest

/-- An item with one `Hostname` address and one `InternalIP` address. -/
def hostItem (name ip : String) (port : Int) : NodeItem :=
  ⟨[⟨"Hostname", name⟩, ⟨"InternalIP", ip⟩], port⟩

/-- A cycle whose request returns status 200 with a body decoding to the given
items, after 5 ms. -/
def fetched (items : List NodeItem) : Cycle :=
  ⟨some ⟨200, some ⟨items⟩⟩, 5, []⟩

/-- A probe goroutine: the Node it runs for and its Kill channel. -/
abbrev Task := Node × Nat

/-- The effect of one event on the set of goroutines started and not cancelled. -/
def applyEvent (live : List Task) : Event → List Task
  | Event.start node kill => live ++ [(node, kill)]
  | Event.cancel _ kill => live.filter (fun t => t.2 ≠ kill)

/-- The goroutines started and not yet cancelled after a sequence of events. -/
def liveAfter (events : List Event) : List Task :=
  events.foldl applyEvent []

/-- The goroutines a registry holds a Probe for. -/
def registryTasks (known : Registry) : List Task :=
  known.map (fun e => (e.2.Node, e.2.Kill))

/-- The registry recorded with the last event of a trace (empty before any). -/
def registryAt (obs : List Obs) : Registry :=
  match obs.getLast? with
  | some o => o.known
  | none => []

/-- The events of a trace replayed on a set of live goroutines. -/
def replay (live : List Task) (obs : List Obs) : List Task :=
  (obs.map Obs.event).foldl applyEvent live

/-- A registry as scan builds it: a map (distinct keys) in which every Probe is
stored under the name of its Node, every Kill channel was made among the first
`chans` ones, and no channel belongs to two Probes. -/
structure RegInv (known : Registry) (chans : Nat) : Prop where
  nodup : (mapKeys known).Nodup
  keyed : ∀ k p, mapGet known k = some p → p.Node.Name = k
  bound : ∀ k p, mapGet known k = some p → p.Kill < chans
  inj : ∀ k k2 p p2, mapGet known k = some p → mapGet known k2 = some p2 →
    p.Kill = p2.Kill → k = k2

/-- Replayed from `live`, every event of the trace leaves exactly the goroutines
of the registry recorded with it, and these have distinct names. -/
def TraceOK : List Task → List Obs → Prop
  | _, [] => True
  | live, o :: rest =>
    applyEvent live o.event = registryTasks o.known ∧
      ((registryTasks o.known).map (fun t => t.1.Name)).Nodup ∧
      TraceOK (applyEvent live o.event) rest

/-- What the sweep does to a Probe it visits: kept with Seen cleared when Seen
is set, removed otherwise. -/
def sweepProbe (p : Probe) : Option Probe :=
  if p.Seen then some { p with Seen := false } else none

/-- The name an event is about. -/
def Event.name : Event → String
  | Event.start node _ => node.Name
  | Event.cancel node _ => node.Name

/-- The events of a trace that are about the name `n`. -/
def eventsFor (n : String) (obs : List Obs) : List Event :=
  (obs.map Obs.event).filter (fun e => e.name = n)

/-! ## probe -/

/-- The metric of a probe goroutine before its first tick (lines 196-198). -/
def probeInit (node : Probe) : Metric :=
  ⟨node.Node, 0, 0, 0⟩

/-- One tick of probe (lines 206-218).  `dial` is `none` when `DialTimeout`
returned an error, `some ms` when it connected and
`time.Since(start).Milliseconds()` is `ms`.  The result is both the new local
metric and the value sent on `metrics`. -/
def probeTick (metric : Metric) (dial : Option Int) : Metric :=
  match dial with
  | none => { metric with Lost := metric.Lost + 1 }
  | some ms => { metric with Time := metric.Time + ms, Reply := metric.Reply + 1 }

/-- The local metric of a probe goroutine after the given ticks. -/
def probeState (node : Probe) (dials : List (Option Int)) : Metric :=
  dials.foldl probeTick (probeInit node)

/-- The metrics a probe goroutine sends over the given ticks, in order. -/
def probeSent (metric : Metric) : List (Option Int) → List Metric
  | [] => []
  | d :: rest => probeTick metric d :: probeSent (probeTick metric d) rest

/-- The metrics sent by a probe goroutine started on `node`. -/
def probeRun (node : Probe) (dials : List (Option Int)) : List Metric :=
  probeSent (probeInit node) dials

/-! ## collect -/

/-- The snapshot `known` of collect: `map[string]Metric`. -/
abbrev Snapshot := List (String × Metric)

/-- The zero value of `Metric`. -/
def zeroMetric : Metric := ⟨⟨"", ""⟩, 0, 0, 0⟩

/-- The index expression `known[key]` of Go: the zero value for a missing key. -/
def mapIndex (known : Snapshot) (key : String) : Metric :=
  (mapGet known key).getD zeroMetric

/-- The case `metric := <- in` of collect (line 254). -/
def collectMetric (known : Snapshot) (metric : Metric) : Snapshot :=
  mapSet known metric.Node.Name metric

/-- The case of the ticker of collect (lines 256-266): the snapshot handed to
`t.Execute`, and the snapshot kept afterwards. -/
def collectTick (known : Snapshot) : Snapshot × Snapshot :=
  (known, mapSet [] "API" (mapIndex known "API"))

/-- What collect receives: a metric from `in`, or a tick of its ticker. -/
inductive CollectStep where
  | metric (m : Metric)
  | tick
deriving DecidableEq, Repr

/-- One step of collect (lines 252-267). -/
def collectStep (known : Snapshot) : CollectStep → Snapshot
  | CollectStep.metric m => collectMetric known m
  | CollectStep.tick => (collectTick known).2

/-- The snapshot of collect after a sequence of steps, from the empty map. -/
def collectRun (steps : List CollectStep) : Snapshot :=
  steps.foldl collectStep []

/-! ## probe composed with collect -/

/-- A step of the pipeline of one probe goroutine and collect, as collect sees
it: it receives the metric of the next attempt of the probe, or its ticker fires.
The channel keeps the order in which the probe sent its metrics, so the n-th
metric collect receives from the probe is the one sent at its n-th attempt. -/
inductive PipeStep where
  | attempt (dial : Option Int)
  | tick
deriving DecidableEq, Repr

/-- The state of the pipeline: the local metric of the probe, the snapshot of
collect, and the snapshots handed to `t.Execute` so far (the published reports). -/
structure Pipe where
  metric : Metric
  known : Snapshot
  reports : List Snapshot
deriving DecidableEq, Repr

/-- One step of the pipeline. -/
def pipeStep (s : Pipe) : PipeStep → Pipe
  | PipeStep.attempt dial =>
    let m := probeTick s.metric dial
    { s with metric := m, known := collectMetric s.known m }
  | PipeStep.tick =>
    let r := collectTick s.known
    { s with known := r.2, reports := s.reports ++ [r.1] }

/-- The pipeline of a probe started on `node` and a collect with an empty
snapshot, after the given steps. -/
def pipeRun (node : Probe) (steps : List PipeStep) : Pipe :=
  steps.foldl pipeStep ⟨probeInit node, [], []⟩

/-- The dial outcomes of the attempts among the steps, in order. -/
def attemptsOf : List PipeStep → List (Option Int)
  | [] => []
  | PipeStep.attempt d :: rest => d :: attemptsOf rest
  | PipeStep.tick :: rest => attemptsOf rest

/-- The number of successful attempts among the given ones. -/
def countReply (w : List (Option Int)) : Int :=
  ((w.filter (fun d => d.isSome)).length : Nat)

/-- The number of failed attempts among the given ones. -/
def countLost (w : List (Option Int)) : Int :=
  ((w.filter (fun d => !d.isSome)).length : Nat)

/-- The summed latency of the successful attempts among the given ones. -/
def sumTime (w : List (Option Int)) : Int :=
  (w.map (fun d => d.getD 0)).sum

/-! ## The Board shared by collect and publish -/

/-- The text written by a sequence of `Write` calls. -/
def joinChunks : List String → String
  | [] => ""
  | c :: rest => c ++ joinChunks rest

/-- Where collect stands in the branch of its ticker (lines 256-262): outside of
it, after `board.Lock()`, or after `board.Reset()` with `t.Execute` under way.
`chunks` are the successive writes `t.Execute` makes on the Board for the
snapshot of this tick and `rest` those still to come.  (`Write` on a
`bytes.Buffer` returns no error and every field the template names exists in
`Metric`, so `t.Execute` runs to its end.) -/
inductive WriterPc where
  | idle
  | locked (chunks : List String)
  | executing (chunks rest : List String)
deriving DecidableEq, Repr

/-- What a handler of `/metrics` handed to `w.Write`, with the number of publish
ticks that were complete at that moment. -/
structure Received where
  handler : Nat
  bytes : String
  gen : Nat
deriving DecidableEq, Repr

/-- The Board (its buffer and its RWMutex), the goroutines using it, and the
history: the renderings of the completed publish ticks, oldest first, and what
the handlers have sent. -/
structure Sys where
  buf : String
  wlocked : Bool
  rcount : Nat
  pc : WriterPc
  handlers : List (Nat × Bool)
  published : List String
  received : List Received
deriving DecidableEq, Repr

/-- One atomic action of collect (the first four) or of a handler of `/metrics`
(the last three, for the handler numbered `r`). -/
inductive Act where
  | lock (chunks : List String)
  | reset
  | write
  | unlock
  | rlock (r : Nat)
  | send (r : Nat)
  | runlock (r : Nat)
deriving DecidableEq, Repr

/-- The system at start: an empty Board, nobody holding the RWMutex. -/
def sysInit : Sys :=
  { buf := "", wlocked := false, rcount := 0, pc := WriterPc.idle, handlers := [],
    published := [], received := [] }

/-- One action, or `none` when the goroutine cannot take it now: `Lock` returns
only while no lock is held, `RLock` only while the write lock is not held, and
each goroutine runs its statements in order. -/
def step (s : Sys) : Act → Option Sys
  | Act.lock chunks =>
    -- board.Lock()
    if s.pc = WriterPc.idle ∧ s.wlocked = false ∧ s.rcount = 0 then
      some { s with wlocked := true, pc := WriterPc.locked chunks }
    else none
  | Act.reset =>
    -- board.Reset()
    match s.pc with
    | WriterPc.locked chunks => some { s with buf := "", pc := WriterPc.executing chunks chunks }
    | _ => none
  | Act.write =>
    -- one Write of t.Execute(board, known)
    match s.pc with
    | WriterPc.executing chunks (c :: rest) =>
      some { s with buf := s.buf ++ c, pc := WriterPc.executing chunks rest }
    | _ => none
  | Act.unlock =>
    -- board.Unlock(), t.Execute having returned
    match s.pc with
    | WriterPc.executing chunks [] =>
      some { s with wlocked := false, pc := WriterPc.idle,
                    published := s.published ++ [joinChunks chunks] }
    | _ => none
  | Act.rlock r =>
    -- board.RLock()
    if s.wlocked = false ∧ r ∉ s.handlers.map Prod.fst then
      some { s with rcount := s.rcount + 1, handlers := (r, false) :: s.handlers }
    else none
  | Act.send r =>
    -- w.Write(board.Bytes())
    if (r, false) ∈ s.handlers then
      some { s with handlers := s.handlers.map (fun h => if h.1 = r then (r, true) else h),
                    received := s.received ++ [⟨r, s.buf, s.published.length⟩] }
    else none
  | Act.runlock r =>
    -- board.RUnlock()
    if (r, true) ∈ s.handlers then
      some { s with rcount := s.rcount - 1, handlers := s.handlers.filter (fun h => h.1 ≠ r) }
    else none

/-- A schedule of actions, from a given state; `none` when some action of the
schedule cannot be taken where the schedule puts it. -/
def runFrom (s : Sys) : List Act → Option Sys
  | [] => some s
  | a :: rest =>
    match step s a with
    | some s2 => runFrom s2 rest
    | none => none

/-- What holds of the Board between the actions of any schedule: the read count
is the number of handlers between `RLock` and `RUnlock`, each listed once; the write lock is held
exactly while collect is in its branch; while it is not held the buffer is the
rendering of the last completed tick (empty before the first); while
`t.Execute` runs the buffer and the writes to come make up the rendering; and
everything sent so far was such a rendering at the moment it was sent. -/
structure BoardInv (s : Sys) : Prop where
  count : s.rcount = s.handlers.length
  ids : (s.handlers.map Prod.fst).Nodup
  idle : s.pc = WriterPc.idle ↔ s.wlocked = false
  excl : s.wlocked = true → s.handlers = []
  stable : s.wlocked = false → s.buf = s.published.getLastD ""
  building : ∀ chunks rest, s.pc = WriterPc.executing chunks rest →
    s.buf ++ joinChunks rest = joinChunks chunks
  sent : ∀ x ∈ s.received, x.gen ≤ s.published.length ∧
    x.bytes = (s.published.take x.gen).getLastD ""

/-! # Properties -/

/-! ## Lemmas on maps -/

theorem mapGet_append {V : Type} (m n : List (String × V)) (k : String) :
    mapGet (m ++ n) k = match mapGet m k with
      | some v => some v
      | none => mapGet n k := by
  induction m with
  | nil => simp [mapGet]
  | cons e m ih =>
    obtain ⟨a, b⟩ := e
    by_cases h : a = k
    · simp [mapGet, h]
    · simp [mapGet, h, ih]

theorem mapGet_map_replace {V : Type} (m : List (String × V)) (key : String) (v : V)
    (k : String) :
    mapGet (m.map (fun e => if e.1 = key then (key, v) else e)) k =
      if k = key then (mapGet m key).map (fun _ => v) else mapGet m k := by
  induction m with
  | nil => simp [mapGet]
  | cons e m ih =>
    obtain ⟨a, b⟩ := e
    by_cases h : a = key
    · by_cases hk : k = key
      · simp [mapGet, h, hk]
      · have hk2 : ¬ key = k := fun h2 => hk h2.symm
        have ha : ¬ a = k := fun h2 => hk (h2.symm.trans h)
        simp [mapGet, h, hk, hk2, ih]
    · by_cases hk : k = key
      · subst hk
        simp [mapGet, h, ih]
      · by_cases ha : a = k
        · subst ha
          simp [mapGet, h]
        · simp [mapGet, h, hk, ha, ih]

theorem mapGet_mapSet_self {V : Type} (m : List (String × V)) (key : String) (v : V) :
    mapGet (mapSet m key v) key = some v := by
  unfold mapSet
  split
  · rename_i h
    rw [mapGet_map_replace]
    obtain ⟨x, hx⟩ := Option.isSome_iff_exists.mp h
    simp [hx]
  · rename_i h
    rw [mapGet_append]
    have hn : mapGet m key = none := by
      cases hg : mapGet m key with
      | none => rfl
      | some x => simp [hg] at h
    simp [hn, mapGet]

theorem mapGet_mapSet_ne {V : Type} (m : List (String × V)) (key k : String) (v : V)
    (h : k ≠ key) : mapGet (mapSet m key v) k = mapGet m k := by
  unfold mapSet
  split
  · rw [mapGet_map_replace]
    simp [h]
  · rw [mapGet_append]
    have hk : ¬ key = k := fun h2 => h h2.symm
    cases hg : mapGet m k <;> simp [mapGet, hk]

theorem mapGet_mapDelete {V : Type} (m : List (String × V)) (key k : String) :
    mapGet (mapDelete m key) k = if k = key then none else mapGet m k := by
  induction m with
  | nil => simp [mapGet, mapDelete]
  | cons e m ih =>
    by_cases h : e.1 = key
    · have hd : mapDelete (e :: m) key = mapDelete m key := by simp [mapDelete, h]
      rw [hd, ih]
      by_cases hk : k = key
      · simp [hk]
      · have ha : ¬ e.1 = k := fun h2 => hk (h2.symm.trans h)
        simp [hk, mapGet, ha]
    · have hd : mapDelete (e :: m) key = e :: mapDelete m key := by simp [mapDelete, h]
      rw [hd]
      simp only [mapGet]
      rw [ih]
      by_cases ha : e.1 = k
      · have hk : ¬ k = key := fun h2 => h (ha.trans h2)
        simp [ha, hk]
      · simp [ha]

theorem mapGet_eq_none_iff {V : Type} (m : List (String × V)) (k : String) :
    mapGet m k = none ↔ k ∉ mapKeys m := by
  induction m with
  | nil => simp [mapGet, mapKeys]
  | cons e m ih =>
    obtain ⟨a, b⟩ := e
    by_cases h : a = k
    · simp [mapGet, mapKeys, h]
    · have h2 : ¬ k = a := fun h3 => h h3.symm
      simp [mapGet, h, h2, mapKeys] at ih ⊢
      exact ih

theorem mapGet_of_mem {V : Type} (m : List (String × V)) (k : String) (v : V)
    (hnd : (mapKeys m).Nodup) (h : (k, v) ∈ m) : mapGet m k = some v := by
  induction m with
  | nil => simp at h
  | cons e m ih =>
    obtain ⟨a, b⟩ := e
    simp only [mapKeys, List.map_cons, List.nodup_cons] at hnd
    rcases List.mem_cons.mp h with h1 | h1
    · cases h1
      simp [mapGet]
    · have ha : ¬ a = k := by
        intro h2
        apply hnd.1
        rw [h2]
        exact List.mem_map_of_mem Prod.fst h1
      simp only [mapGet, ha, if_false]
      exact ih hnd.2 h1

/-! ## Lemmas on the registry -/

theorem mapKeys_mapSet {V : Type} (m : List (String × V)) (key : String) (v : V) :
    mapKeys (mapSet m key v) =
      if (mapGet m key).isSome then mapKeys m else mapKeys m ++ [key] := by
  unfold mapSet
  split
  · simp only [mapKeys, List.map_map]
    apply List.map_congr_left
    intro e _
    by_cases h : e.1 = key <;> simp [h]
  · simp [mapKeys]

theorem mapKeys_mapDelete {V : Type} (m : List (String × V)) (key : String) :
    mapKeys (mapDelete m key) = (mapKeys m).filter (fun k => k ≠ key) := by
  simp only [mapKeys, mapDelete, List.filter_map]
  rfl

theorem nodup_mapSet {V : Type} (m : List (String × V)) (key : String) (v : V)
    (h : (mapKeys m).Nodup) : (mapKeys (mapSet m key v)).Nodup := by
  rw [mapKeys_mapSet]
  split
  · exact h
  · rename_i hs
    have hn : mapGet m key = none := by
      cases hg : mapGet m key with
      | none => rfl
      | some x => simp [hg] at hs
    have hk : key ∉ mapKeys m := (mapGet_eq_none_iff m key).mp hn
    exact List.Nodup.append h (List.nodup_singleton key) (by simpa using hk)

theorem nodup_mapDelete {V : Type} (m : List (String × V)) (key : String)
    (h : (mapKeys m).Nodup) : (mapKeys (mapDelete m key)).Nodup := by
  rw [mapKeys_mapDelete]
  exact h.filter _

theorem mapGet_self_of_mem {V : Type} (m : List (String × V)) (e : String × V)
    (hnd : (mapKeys m).Nodup) (h : e ∈ m) : mapGet m e.1 = some e.2 :=
  mapGet_of_mem m e.1 e.2 hnd h

theorem registryTasks_mapSet_same (known : Registry) (key : String) (p q : Probe)
    (hnd : (mapKeys known).Nodup) (hget : mapGet known key = some p)
    (hnode : q.Node = p.Node) (hkill : q.Kill = p.Kill) :
    registryTasks (mapSet known key q) = registryTasks known := by
  unfold mapSet
  simp only [hget, Option.isSome_some, if_true, registryTasks, List.map_map]
  apply List.map_congr_left
  intro e he
  by_cases h : e.1 = key
  · have h2 := mapGet_self_of_mem known e hnd he
    rw [h, hget] at h2
    have h3 : p = e.2 := by simpa using h2
    simp [h, hnode, hkill, h3]
  · simp [h]

theorem registryTasks_mapSet_new (known : Registry) (key : String) (q : Probe)
    (hget : mapGet known key = none) :
    registryTasks (mapSet known key q) = registryTasks known ++ [(q.Node, q.Kill)] := by
  unfold mapSet
  simp [hget, registryTasks]

theorem registryTasks_mapDelete (known : Registry) (chans : Nat) (key : String) (p : Probe)
    (hinv : RegInv known chans) (hget : mapGet known key = some p) :
    registryTasks (mapDelete known key) =
      (registryTasks known).filter (fun t => t.2 ≠ p.Kill) := by
  simp only [registryTasks, mapDelete, List.filter_map]
  congr 1
  apply List.filter_congr
  intro e he
  have h2 := mapGet_self_of_mem known e hinv.nodup he
  by_cases h : e.1 = key
  · rw [h, hget] at h2
    have h3 : p = e.2 := by simpa using h2
    simp [h, h3]
  · have hk : ¬ e.2.Kill = p.Kill := fun hk => h (hinv.inj _ _ _ _ h2 hget hk)
    simp [h, hk]

theorem registryTasks_names (known : Registry) (chans : Nat) (hinv : RegInv known chans) :
    ((registryTasks known).map (fun t => t.1.Name)).Nodup := by
  have h : (registryTasks known).map (fun t => t.1.Name) = mapKeys known := by
    simp only [registryTasks, mapKeys, List.map_map]
    apply List.map_congr_left
    intro e he
    exact hinv.keyed _ _ (mapGet_self_of_mem known e hinv.nodup he)
  rw [h]
  exact hinv.nodup

theorem regInv_empty (chans : Nat) : RegInv [] chans :=
  ⟨by simp [mapKeys], by simp [mapGet], by simp [mapGet], by simp [mapGet]⟩

theorem regInv_delete {known : Registry} {chans : Nat} (h : RegInv known chans)
    (key : String) : RegInv (mapDelete known key) chans := by
  refine ⟨nodup_mapDelete _ _ h.nodup, ?_, ?_, ?_⟩
  · intro k p hg
    rw [mapGet_mapDelete] at hg
    by_cases hk : k = key
    · simp [hk] at hg
    · simp only [hk, if_false] at hg
      exact h.keyed k p hg
  · intro k p hg
    rw [mapGet_mapDelete] at hg
    by_cases hk : k = key
    · simp [hk] at hg
    · simp only [hk, if_false] at hg
      exact h.bound k p hg
  · intro k k2 p p2 hg hg2 hkill
    rw [mapGet_mapDelete] at hg hg2
    by_cases hk : k = key
    · simp [hk] at hg
    · by_cases hk2 : k2 = key
      · simp [hk2] at hg2
      · simp only [hk, hk2, if_false] at hg hg2
        exact h.inj k k2 p p2 hg hg2 hkill

theorem regInv_setSame {known : Registry} {chans : Nat} (h : RegInv known chans)
    (key : String) (p q : Probe) (hget : mapGet known key = some p)
    (hnode : q.Node = p.Node) (hkill : q.Kill = p.Kill) :
    RegInv (mapSet known key q) chans := by
  refine ⟨nodup_mapSet _ _ _ h.nodup, ?_, ?_, ?_⟩
  · intro k r hg
    by_cases hk : k = key
    · subst hk
      rw [mapGet_mapSet_self] at hg
      have hr : q = r := by simpa using hg
      rw [← hr, hnode]
      exact h.keyed _ _ hget
    · rw [mapGet_mapSet_ne _ _ _ _ hk] at hg
      exact h.keyed k r hg
  · intro k r hg
    by_cases hk : k = key
    · subst hk
      rw [mapGet_mapSet_self] at hg
      have hr : q = r := by simpa using hg
      rw [← hr, hkill]
      exact h.bound _ _ hget
    · rw [mapGet_mapSet_ne _ _ _ _ hk] at hg
      exact h.bound k r hg
  · intro k k2 r r2 hg hg2 hkill2
    by_cases hk : k = key
    · by_cases hk2 : k2 = key
      · rw [hk, hk2]
      · subst hk
        rw [mapGet_mapSet_self] at hg
        rw [mapGet_mapSet_ne _ _ _ _ hk2] at hg2
        have hr : q = r := by simpa using hg
        rw [← hr, hkill] at hkill2
        exact h.inj _ _ _ _ hget hg2 hkill2
    · by_cases hk2 : k2 = key
      · subst hk2
        rw [mapGet_mapSet_self] at hg2
        rw [mapGet_mapSet_ne _ _ _ _ hk] at hg
        have hr : q = r2 := by simpa using hg2
        rw [← hr, hkill] at hkill2
        exact h.inj _ _ _ _ hg hget hkill2
      · rw [mapGet_mapSet_ne _ _ _ _ hk] at hg
        rw [mapGet_mapSet_ne _ _ _ _ hk2] at hg2
        exact h.inj _ _ _ _ hg hg2 hkill2

theorem regInv_setNew {known : Registry} {chans : Nat} (h : RegInv known chans)
    (node : Node) (seen : Bool) :
    RegInv (mapSet known node.Name ⟨node, chans, seen⟩) (chans + 1) := by
  refine ⟨nodup_mapSet _ _ _ h.nodup, ?_, ?_, ?_⟩
  · intro k r hg
    by_cases hk : k = node.Name
    · subst hk
      rw [mapGet_mapSet_self] at hg
      have hr : (⟨node, chans, seen⟩ : Probe) = r := by simpa using hg
      rw [← hr]
    · rw [mapGet_mapSet_ne _ _ _ _ hk] at hg
      exact h.keyed k r hg
  · intro k r hg
    by_cases hk : k = node.Name
    · subst hk
      rw [mapGet_mapSet_self] at hg
      have hr : (⟨node, chans, seen⟩ : Probe) = r := by simpa using hg
      rw [← hr]
      exact Nat.lt_succ_self chans
    · rw [mapGet_mapSet_ne _ _ _ _ hk] at hg
      exact Nat.lt_succ_of_lt (h.bound k r hg)
  · intro k k2 r r2 hg hg2 hkill2
    by_cases hk : k = node.Name
    · by_cases hk2 : k2 = node.Name
      · rw [hk, hk2]
      · subst hk
        rw [mapGet_mapSet_self] at hg
        rw [mapGet_mapSet_ne _ _ _ _ hk2] at hg2
        have hr : (⟨node, chans, seen⟩ : Probe) = r := by simpa using hg
        have hb := h.bound _ _ hg2
        rw [← hkill2, ← hr] at hb
        exact absurd hb (lt_irrefl _)
    · by_cases hk2 : k2 = node.Name
      · subst hk2
        rw [mapGet_mapSet_self] at hg2
        rw [mapGet_mapSet_ne _ _ _ _ hk] at hg
        have hr : (⟨node, chans, seen⟩ : Probe) = r2 := by simpa using hg2
        have hb := h.bound _ _ hg
        rw [hkill2, ← hr] at hb
        exact absurd hb (lt_irrefl _)
      · rw [mapGet_mapSet_ne _ _ _ _ hk] at hg
        rw [mapGet_mapSet_ne _ _ _ _ hk2] at hg2
        exact h.inj _ _ _ _ hg hg2 hkill2

/-! ## One step of scan and the goroutines it leaves running -/

theorem scanItem_same (known : Registry) (chans : Nat) (node : Node) (val : Probe)
    (hget : mapGet known node.Name = some val) (hval : val.Node = node) :
    scanItem known chans node =
      ((mapSet known node.Name { val with Seen := true }, chans), []) := by
  simp [scanItem, hget, hval]

theorem scanItem_changed (known : Registry) (chans : Nat) (node : Node) (val : Probe)
    (hget : mapGet known node.Name = some val) (hval : val.Node ≠ node) :
    scanItem known chans node =
      ((mapSet (mapSet (mapDelete known node.Name) node.Name ⟨node, chans, false⟩) node.Name
          ⟨node, chans, true⟩, chans + 1),
        [⟨Event.cancel val.Node val.Kill, mapDelete known node.Name⟩,
          ⟨Event.start node chans,
            mapSet (mapDelete known node.Name) node.Name ⟨node, chans, false⟩⟩]) := by
  simp [scanItem, hget, hval, mapGet_mapSet_self]

theorem scanItem_new (known : Registry) (chans : Nat) (node : Node)
    (hget : mapGet known node.Name = none) :
    scanItem known chans node =
      ((mapSet (mapSet known node.Name ⟨node, chans, false⟩) node.Name ⟨node, chans, true⟩,
          chans + 1),
        [⟨Event.start node chans, mapSet known node.Name ⟨node, chans, false⟩⟩]) := by
  simp [scanItem, hget, mapGet_mapSet_self]

theorem replay_append (live : List Task) (a b : List Obs) :
    replay live (a ++ b) = replay (replay live a) b := by
  simp [replay, List.foldl_append]

theorem TraceOK_append (live : List Task) (a b : List Obs) :
    TraceOK live (a ++ b) ↔ TraceOK live a ∧ TraceOK (replay live a) b := by
  induction a generalizing live with
  | nil => simp [TraceOK, replay]
  | cons o a ih =>
    have e1 : TraceOK live (o :: a ++ b) ↔
        (applyEvent live o.event = registryTasks o.known ∧
          ((registryTasks o.known).map (fun t => t.1.Name)).Nodup ∧
          TraceOK (applyEvent live o.event) (a ++ b)) := Iff.rfl
    have e2 : TraceOK live (o :: a) ↔
        (applyEvent live o.event = registryTasks o.known ∧
          ((registryTasks o.known).map (fun t => t.1.Name)).Nodup ∧
          TraceOK (applyEvent live o.event) a) := Iff.rfl
    have e3 : replay live (o :: a) = replay (applyEvent live o.event) a := rfl
    rw [e1, e2, e3, ih]
    tauto

theorem scanItem_ok (known : Registry) (chans : Nat) (node : Node)
    (hinv : RegInv known chans) :
    RegInv (scanItem known chans node).1.1 (scanItem known chans node).1.2 ∧
      TraceOK (registryTasks known) (scanItem known chans node).2 ∧
      replay (registryTasks known) (scanItem known chans node).2 =
        registryTasks (scanItem known chans node).1.1 := by
  rcases hget : mapGet known node.Name with _ | val
  · rw [scanItem_new known chans node hget]
    have h1 : RegInv (mapSet known node.Name ⟨node, chans, false⟩) (chans + 1) :=
      regInv_setNew hinv node false
    have hg1 : mapGet (mapSet known node.Name ⟨node, chans, false⟩) node.Name =
        some ⟨node, chans, false⟩ := mapGet_mapSet_self _ _ _
    have ht1 : registryTasks (mapSet known node.Name ⟨node, chans, false⟩) =
        registryTasks known ++ [(node, chans)] := registryTasks_mapSet_new _ _ _ hget
    refine ⟨regInv_setSame h1 _ _ _ hg1 rfl rfl, ?_, ?_⟩
    · simp only [TraceOK, applyEvent, ht1, and_true, true_and]
      rw [← ht1]
      exact registryTasks_names _ _ h1
    · simp only [replay, List.map_cons, List.map_nil, List.foldl_cons, List.foldl_nil,
        applyEvent]
      rw [registryTasks_mapSet_same _ _ _ ⟨node, chans, true⟩ h1.nodup hg1 rfl rfl, ht1]
  · by_cases hval : val.Node = node
    · rw [scanItem_same known chans node val hget hval]
      refine ⟨regInv_setSame hinv _ _ _ hget rfl rfl, ?_, ?_⟩
      · simp [TraceOK]
      · simp only [replay, List.map_nil, List.foldl_nil]
        rw [registryTasks_mapSet_same _ _ _ { val with Seen := true } hinv.nodup hget rfl rfl]
    · rw [scanItem_changed known chans node val hget hval]
      have h0 : RegInv (mapDelete known node.Name) chans := regInv_delete hinv _
      have hg0 : mapGet (mapDelete known node.Name) node.Name = none := by
        rw [mapGet_mapDelete]
        simp
      have ht0 : registryTasks (mapDelete known node.Name) =
          (registryTasks known).filter (fun t => t.2 ≠ val.Kill) :=
        registryTasks_mapDelete known chans _ val hinv hget
      have h1 : RegInv (mapSet (mapDelete known node.Name) node.Name ⟨node, chans, false⟩)
          (chans + 1) := regInv_setNew h0 node false
      have hg1 : mapGet (mapSet (mapDelete known node.Name) node.Name ⟨node, chans, false⟩)
          node.Name = some ⟨node, chans, false⟩ := mapGet_mapSet_self _ _ _
      have ht1 : registryTasks (mapSet (mapDelete known node.Name) node.Name
          ⟨node, chans, false⟩) = registryTasks (mapDelete known node.Name) ++ [(node, chans)] :=
        registryTasks_mapSet_new _ _ _ hg0
      refine ⟨regInv_setSame h1 _ _ _ hg1 rfl rfl, ?_, ?_⟩
      · simp only [TraceOK, applyEvent, and_true]
        refine ⟨ht0.symm, registryTasks_names _ _ h0, ?_, registryTasks_names _ _ h1⟩
        rw [ht1, ht0]
      · simp only [replay, List.map_cons, List.map_nil, List.foldl_cons, List.foldl_nil,
          applyEvent]
        rw [registryTasks_mapSet_same _ _ _ ⟨node, chans, true⟩ h1.nodup hg1 rfl rfl, ht1, ht0]

theorem scanItems_ok (known : Registry) (chans : Nat) (nodes : List Node)
    (hinv : RegInv known chans) :
    RegInv (scanItems known chans nodes).1.1 (scanItems known chans nodes).1.2 ∧
      TraceOK (registryTasks known) (scanItems known chans nodes).2 ∧
      replay (registryTasks known) (scanItems known chans nodes).2 =
        registryTasks (scanItems known chans nodes).1.1 := by
  induction nodes generalizing known chans with
  | nil => simp [scanItems, TraceOK, replay, hinv]
  | cons node rest ih =>
    obtain ⟨h1, h2, h3⟩ := scanItem_ok known chans node hinv
    obtain ⟨i1, i2, i3⟩ := ih _ _ h1
    simp only [scanItems]
    refine ⟨i1, ?_, ?_⟩
    · rw [TraceOK_append, h3]
      exact ⟨h2, i2⟩
    · rw [replay_append, h3, i3]

theorem sweepKey_ok (known : Registry) (chans : Nat) (key : String)
    (hinv : RegInv known chans) :
    RegInv (sweepKey known key).1 chans ∧
      TraceOK (registryTasks known) (sweepKey known key).2 ∧
      replay (registryTasks known) (sweepKey known key).2 =
        registryTasks (sweepKey known key).1 := by
  unfold sweepKey
  rcases hget : mapGet known key with _ | p
  · simp [TraceOK, replay, hinv]
  · by_cases hseen : p.Seen = true
    · simp only [hseen, if_true]
      refine ⟨regInv_setSame hinv _ _ _ hget rfl rfl, ?_, ?_⟩
      · simp [TraceOK]
      · simp only [replay, List.map_nil, List.foldl_nil]
        rw [registryTasks_mapSet_same _ _ _ { p with Seen := false } hinv.nodup hget rfl rfl]
    · simp only [hseen]
      have ht0 := registryTasks_mapDelete known chans _ p hinv hget
      refine ⟨regInv_delete hinv _, ?_, ?_⟩
      · simp only [TraceOK, applyEvent, and_true]
        exact ⟨ht0.symm, registryTasks_names _ _ (regInv_delete hinv _)⟩
      · simp only [replay, List.map_cons, List.map_nil, List.foldl_cons, List.foldl_nil,
          applyEvent]
        exact ht0.symm

theorem sweepKeys_ok (known : Registry) (chans : Nat) (keys : List String)
    (hinv : RegInv known chans) :
    RegInv (sweepKeys known keys).1 chans ∧
      TraceOK (registryTasks known) (sweepKeys known keys).2 ∧
      replay (registryTasks known) (sweepKeys known keys).2 =
        registryTasks (sweepKeys known keys).1 := by
  induction keys generalizing known with
  | nil => simp [sweepKeys, TraceOK, replay, hinv]
  | cons key rest ih =>
    obtain ⟨h1, h2, h3⟩ := sweepKey_ok known chans key hinv
    obtain ⟨i1, i2, i3⟩ := ih _ h1
    simp only [sweepKeys]
    refine ⟨i1, ?_, ?_⟩
    · rw [TraceOK_append, h3]
      exact ⟨h2, i2⟩
    · rw [replay_append, h3, i3]

theorem reconcile_ok (known : Registry) (chans : Nat) (items : List NodeItem)
    (pri : List String) (hinv : RegInv known chans) :
    RegInv (reconcile known chans items pri).1.1 (reconcile known chans items pri).1.2 ∧
      TraceOK (registryTasks known) (reconcile known chans items pri).2 ∧
      replay (registryTasks known) (reconcile known chans items pri).2 =
        registryTasks (reconcile known chans items pri).1.1 := by
  obtain ⟨h1, h2, h3⟩ := scanItems_ok known chans (items.map itemNode) hinv
  obtain ⟨i1, i2, i3⟩ := sweepKeys_ok _ _ (rangeOrder pri
    (scanItems known chans (items.map itemNode)).1.1) h1
  simp only [reconcile, sweep]
  refine ⟨i1, ?_, ?_⟩
  · rw [TraceOK_append, h3]
    exact ⟨h2, i2⟩
  · rw [replay_append, h3, i3]

theorem scanCycle_ok (st : ScanState) (c : Cycle) (hinv : RegInv st.known st.chans) :
    RegInv (scanCycle st c).state.known (scanCycle st c).state.chans ∧
      TraceOK (registryTasks st.known) (scanCycle st c).trace ∧
      replay (registryTasks st.known) (scanCycle st c).trace =
        registryTasks (scanCycle st c).state.known := by
  unfold scanCycle
  split
  · simp [TraceOK, replay, hinv]
  · split
    · simp [TraceOK, replay, hinv]
    · split
      · simp [TraceOK, replay, hinv]
      · exact reconcile_ok _ _ _ _ hinv

theorem scanTrace_ok (st : ScanState) (cycles : List Cycle)
    (hinv : RegInv st.known st.chans) :
    TraceOK (registryTasks st.known) (scanTrace st cycles) := by
  induction cycles generalizing st with
  | nil => simp [scanTrace, TraceOK]
  | cons c rest ih =>
    obtain ⟨h1, h2, h3⟩ := scanCycle_ok st c hinv
    simp only [scanTrace]
    rw [TraceOK_append, h3]
    exact ⟨h2, ih _ h1⟩

theorem scanTrace_replay (st : ScanState) (cycles : List Cycle)
    (hinv : RegInv st.known st.chans) :
    replay (registryTasks st.known) (scanTrace st cycles) =
      registryTasks (cycles.foldl (fun s c => (scanCycle s c).state) st).known := by
  induction cycles generalizing st with
  | nil => simp [scanTrace, replay]
  | cons c rest ih =>
    obtain ⟨h1, _, h3⟩ := scanCycle_ok st c hinv
    simp only [scanTrace, List.foldl_cons]
    rw [replay_append, h3, ih _ h1]

theorem scanRun_inv (api : String) (cycles : List Cycle) :
    RegInv (scanRun api cycles).known (scanRun api cycles).chans := by
  unfold scanRun
  induction cycles using List.reverseRecOn with
  | nil => exact regInv_empty 0
  | append_singleton cs c ih =>
    rw [List.foldl_append]
    exact (scanCycle_ok _ c ih).1

theorem TraceOK_last (live : List Task) (obs : List Obs) (o : Obs)
    (h : TraceOK live (obs ++ [o])) :
    replay live (obs ++ [o]) = registryTasks o.known ∧
      ((registryTasks o.known).map (fun t => t.1.Name)).Nodup := by
  rw [TraceOK_append] at h
  obtain ⟨_, h2⟩ := h
  have h3 : applyEvent (replay live obs) o.event = registryTasks o.known ∧
      ((registryTasks o.known).map (fun t => t.1.Name)).Nodup ∧ True := h2
  rw [replay_append]
  exact ⟨h3.1, h3.2.1⟩

theorem TraceOK_take (obs : List Obs) (n : Nat) (h : TraceOK [] obs) :
    replay [] (obs.take n) = registryTasks (registryAt (obs.take n)) ∧
      ((replay [] (obs.take n)).map (fun t => t.1.Name)).Nodup := by
  have h1 : TraceOK [] (obs.take n) := by
    have h2 := h
    rw [← List.take_append_drop n obs, TraceOK_append] at h2
    exact h2.1
  rcases List.eq_nil_or_concat (obs.take n) with h0 | ⟨ys, y, hy⟩
  · rw [h0]
    simp [replay, registryAt, registryTasks]
  · rw [hy] at h1 ⊢
    have h3 := TraceOK_last [] ys y (by simpa using h1)
    have h4 : registryAt (ys.concat y) = y.known := by
      simp [registryAt]
    rw [h4]
    have h5 : ys.concat y = ys ++ [y] := by simp
    rw [h5, h3.1]
    exact ⟨rfl, h3.2⟩

/-- C2: for every sequence of scan cycles from the empty registry and every
initial part of the trace of starts and cancels they perform, the goroutines
started and not yet cancelled have pairwise distinct names and are exactly the
goroutines (Node and Kill channel) of the Probes in the registry `known` at that
point; at the end of the cycles they are those of the registry scan holds. -/
theorem scan_live_tasks_are_registry (api : String) (cycles : List Cycle) (n : Nat) :
    ((liveAfter (((scanTrace (scanInit api) cycles).take n).map Obs.event)).map
        (fun t => t.1.Name)).Nodup ∧
      (liveAfter (((scanTrace (scanInit api) cycles).take n).map Obs.event)).Perm
        (registryTasks (registryAt ((scanTrace (scanInit api) cycles).take n))) ∧
      (liveAfter ((scanTrace (scanInit api) cycles).map Obs.event)).Perm
        (registryTasks (scanRun api cycles).known) := by
  have hinv : RegInv (scanInit api).known (scanInit api).chans := regInv_empty 0
  have hok : TraceOK [] (scanTrace (scanInit api) cycles) := scanTrace_ok _ cycles hinv
  have h := TraceOK_take _ n hok
  have hr := scanTrace_replay _ cycles hinv
  refine ⟨h.2, ?_, ?_⟩
  · exact List.Perm.of_eq h.1
  · exact List.Perm.of_eq hr

/-! ## The registry after a reconciliation -/

theorem rangeOrder_nodup {V : Type} (pri : List String) (m : List (String × V))
    (hnd : (mapKeys m).Nodup) : (rangeOrder pri m).Nodup := by
  unfold rangeOrder
  apply List.Nodup.append (List.nodup_dedup _) (hnd.filter _)
  intro x hx hy
  rw [List.mem_dedup, List.mem_filter] at hx
  rw [List.mem_filter] at hy
  simp at hy
  exact hy.2 hx.1

theorem rangeOrder_self {V : Type} (pri : List String) (m : List (String × V))
    (hnd : pri.Nodup) (hperm : pri.Perm (mapKeys m)) : rangeOrder pri m = pri := by
  unfold rangeOrder
  have h1 : pri.filter (fun k => k ∈ mapKeys m) = pri := by
    rw [List.filter_eq_self]
    intro k hk
    simpa using hperm.subset hk
  have h2 : (mapKeys m).filter (fun k => k ∉ pri) = [] := by
    rw [List.filter_eq_nil_iff]
    intro k hk
    simpa using hperm.symm.subset hk
  rw [h1, h2, List.append_nil]
  exact hnd.dedup

theorem mem_rangeOrder {V : Type} (pri : List String) (m : List (String × V)) (k : String) :
    k ∈ rangeOrder pri m ↔ k ∈ mapKeys m := by
  unfold rangeOrder
  rw [List.mem_append, List.mem_dedup, List.mem_filter, List.mem_filter]
  by_cases h : k ∈ pri <;> simp [h]

theorem scanItem_get_self (known : Registry) (chans : Nat) (node : Node) :
    ∃ p, mapGet (scanItem known chans node).1.1 node.Name = some p ∧ p.Node = node ∧
      p.Seen = true := by
  rcases hget : mapGet known node.Name with _ | val
  · rw [scanItem_new known chans node hget]
    exact ⟨_, mapGet_mapSet_self _ _ _, rfl, rfl⟩
  · by_cases hval : val.Node = node
    · rw [scanItem_same known chans node val hget hval]
      exact ⟨_, mapGet_mapSet_self _ _ _, hval, rfl⟩
    · rw [scanItem_changed known chans node val hget hval]
      exact ⟨_, mapGet_mapSet_self _ _ _, rfl, rfl⟩

theorem scanItem_get_ne (known : Registry) (chans : Nat) (node : Node) (k : String)
    (hk : k ≠ node.Name) : mapGet (scanItem known chans node).1.1 k = mapGet known k := by
  rcases hget : mapGet known node.Name with _ | val
  · rw [scanItem_new known chans node hget]
    simp only
    rw [mapGet_mapSet_ne _ _ _ _ hk, mapGet_mapSet_ne _ _ _ _ hk]
  · by_cases hval : val.Node = node
    · rw [scanItem_same known chans node val hget hval]
      simp only
      rw [mapGet_mapSet_ne _ _ _ _ hk]
    · rw [scanItem_changed known chans node val hget hval]
      simp only
      rw [mapGet_mapSet_ne _ _ _ _ hk, mapGet_mapSet_ne _ _ _ _ hk, mapGet_mapDelete]
      simp [hk]

theorem scanItems_get_not_mem (known : Registry) (chans : Nat) (nodes : List Node)
    (k : String) (hk : k ∉ nodes.map Node.Name) :
    mapGet (scanItems known chans nodes).1.1 k = mapGet known k := by
  induction nodes generalizing known chans with
  | nil => rfl
  | cons node rest ih =>
    simp only [List.map_cons, List.mem_cons, not_or] at hk
    simp only [scanItems]
    rw [ih _ _ hk.2, scanItem_get_ne _ _ _ _ hk.1]

theorem scanItems_get_mem (known : Registry) (chans : Nat) (nodes : List Node)
    (k : String) (hk : k ∈ nodes.map Node.Name) :
    ∃ p, mapGet (scanItems known chans nodes).1.1 k = some p ∧ p.Seen = true := by
  induction nodes generalizing known chans with
  | nil => simp at hk
  | cons node rest ih =>
    simp only [scanItems]
    by_cases hr : k ∈ rest.map Node.Name
    · exact ih _ _ hr
    · rw [scanItems_get_not_mem _ _ _ _ hr]
      simp only [List.map_cons, List.mem_cons] at hk
      rcases hk with hk | hk
      · obtain ⟨p, hp, _, hs⟩ := scanItem_get_self known chans node
        rw [hk]
        exact ⟨p, hp, hs⟩
      · exact absurd hk hr

theorem sweepKey_get (known : Registry) (key k : String) :
    mapGet (sweepKey known key).1 k =
      if k = key then (mapGet known key).bind sweepProbe else mapGet known k := by
  unfold sweepKey
  rcases hget : mapGet known key with _ | p
  · by_cases hk : k = key
    · simp [hk, hget]
    · simp [hk]
  · by_cases hseen : p.Seen = true
    · simp only [hseen, if_true]
      by_cases hk : k = key
      · subst hk
        rw [mapGet_mapSet_self]
        simp [sweepProbe, hseen]
      · rw [mapGet_mapSet_ne _ _ _ _ hk]
        simp [hk]
    · simp only [hseen, Bool.false_eq_true, if_false]
      rw [mapGet_mapDelete]
      by_cases hk : k = key
      · simp [hk, sweepProbe, hseen]
      · simp [hk]

theorem sweepKeys_get (known : Registry) (keys : List String) (k : String)
    (hnd : keys.Nodup) :
    mapGet (sweepKeys known keys).1 k =
      if k ∈ keys then (mapGet known k).bind sweepProbe else mapGet known k := by
  induction keys generalizing known with
  | nil => simp [sweepKeys]
  | cons key rest ih =>
    rw [List.nodup_cons] at hnd
    simp only [sweepKeys]
    rw [ih _ hnd.2, sweepKey_get]
    by_cases hk : k = key
    · subst hk
      simp [hnd.1]
    · simp [hk]

theorem sweep_get (known : Registry) (pri : List String) (k : String)
    (hnd : (mapKeys known).Nodup) :
    mapGet (sweep known pri).1 k = (mapGet known k).bind sweepProbe := by
  unfold sweep
  rw [sweepKeys_get _ _ _ (rangeOrder_nodup pri known hnd)]
  by_cases hk : k ∈ rangeOrder pri known
  · simp [hk]
  · have hk2 : k ∉ mapKeys known := fun h => hk ((mem_rangeOrder pri known k).mpr h)
    simp [hk, (mapGet_eq_none_iff known k).mpr hk2]

theorem sweep_unseen (known : Registry) (pri : List String) (k : String) (p : Probe)
    (hnd : (mapKeys known).Nodup) (hget : mapGet (sweep known pri).1 k = some p) :
    p.Seen = false := by
  rw [sweep_get _ _ _ hnd] at hget
  rcases hq : mapGet known k with _ | q
  · simp [hq] at hget
  · rw [hq] at hget
    cases hs : q.Seen with
    | false => simp [sweepProbe, hs] at hget
    | true =>
      have h2 : (⟨q.Node, q.Kill, false⟩ : Probe) = p := by
        simpa [sweepProbe, hs] using hget
      rw [← h2]

theorem scanCycle_known (st : ScanState) (c : Cycle) :
    (scanCycle st c).state.known = st.known ∨
      ∃ items, (scanCycle st c).state.known =
        (reconcile st.known st.chans items c.pri).1.1 := by
  unfold scanCycle
  split
  · exact Or.inl rfl
  · split
    · exact Or.inl rfl
    · split
      · exact Or.inl rfl
      · exact Or.inr ⟨_, rfl⟩

theorem scanRun_unseen (api : String) (cycles : List Cycle) (k : String) (p : Probe)
    (hget : mapGet (scanRun api cycles).known k = some p) : p.Seen = false := by
  induction cycles using List.reverseRecOn generalizing k p with
  | nil => simp [scanRun, scanInit, mapGet] at hget
  | append_singleton cs c ih =>
    have hrun : scanRun api (cs ++ [c]) = (scanCycle (scanRun api cs) c).state := by
      simp [scanRun, List.foldl_append]
    rw [hrun] at hget
    rcases scanCycle_known (scanRun api cs) c with h | ⟨items, h⟩
    · rw [h] at hget
      exact ih k p hget
    · rw [h] at hget
      have hinv := (scanItems_ok _ _ (items.map itemNode) (scanRun_inv api cs)).1
      exact sweep_unseen _ _ k p hinv.nodup hget

theorem reconcile_get (api : String) (cycles : List Cycle) (items : List NodeItem)
    (pri : List String) (k : String) :
    k ∈ mapKeys (reconcile (scanRun api cycles).known (scanRun api cycles).chans items pri).1.1 ↔
      k ∈ (items.map itemNode).map Node.Name := by
  have hinv := (scanItems_ok _ _ (items.map itemNode) (scanRun_inv api cycles)).1
  rw [← not_iff_not, ← mapGet_eq_none_iff]
  simp only [reconcile]
  rw [sweep_get _ _ _ hinv.nodup]
  by_cases hk : k ∈ (items.map itemNode).map Node.Name
  · obtain ⟨p, hp, hs⟩ := scanItems_get_mem (scanRun api cycles).known
      (scanRun api cycles).chans _ k hk
    refine iff_of_false ?_ (not_not.mpr hk)
    rw [hp]
    simp [sweepProbe, hs]
  · rw [scanItems_get_not_mem _ _ _ _ hk]
    refine iff_of_true ?_ hk
    rcases hq : mapGet (scanRun api cycles).known k with _ | q
    · rfl
    · simp [sweepProbe, scanRun_unseen api cycles k q hq]

/-- C1: for every registry reached by earlier scan cycles and every list of items
of a successful fetch (names may repeat or be empty), after the per-item loop and
the sweep the number of entries of `known`, which is also the number of probe
goroutines started and not cancelled, equals the number of distinct names in the
list. -/
theorem reconcile_count_distinct_names (api : String) (cycles : List Cycle)
    (items : List NodeItem) (elapsed : Int) (pri : List String) :
    (reconcile (scanRun api cycles).known (scanRun api cycles).chans items pri).1.1.length =
        ((items.map itemNode).map Node.Name).dedup.length ∧
      (scanCycle (scanRun api cycles) ⟨some ⟨200, some ⟨items⟩⟩, elapsed, pri⟩).state.known.length =
        ((items.map itemNode).map Node.Name).dedup.length ∧
      (liveAfter ((scanTrace (scanInit api)
          (cycles ++ [⟨some ⟨200, some ⟨items⟩⟩, elapsed, pri⟩])).map Obs.event)).length =
        ((items.map itemNode).map Node.Name).dedup.length := by
  have hinv := (reconcile_ok _ _ items pri (scanRun_inv api cycles)).1
  have hperm : (mapKeys (reconcile (scanRun api cycles).known (scanRun api cycles).chans
      items pri).1.1).Perm ((items.map itemNode).map Node.Name).dedup := by
    rw [List.perm_ext_iff_of_nodup hinv.nodup (List.nodup_dedup _)]
    intro k
    rw [List.mem_dedup]
    exact reconcile_get api cycles items pri k
  have hlen : (reconcile (scanRun api cycles).known (scanRun api cycles).chans items
      pri).1.1.length = ((items.map itemNode).map Node.Name).dedup.length := by
    rw [← hperm.length_eq]
    simp [mapKeys]
  have hcyc : (scanCycle (scanRun api cycles)
      ⟨some ⟨200, some ⟨items⟩⟩, elapsed, pri⟩).state.known =
      (reconcile (scanRun api cycles).known (scanRun api cycles).chans items pri).1.1 := by
    simp [scanCycle]
  refine ⟨hlen, ?_, ?_⟩
  · rw [hcyc, hlen]
  · have hr := scanTrace_replay (scanInit api)
      (cycles ++ [⟨some ⟨200, some ⟨items⟩⟩, elapsed, pri⟩]) (regInv_empty 0)
    have hl : liveAfter ((scanTrace (scanInit api)
        (cycles ++ [⟨some ⟨200, some ⟨items⟩⟩, elapsed, pri⟩])).map Obs.event) =
        replay [] (scanTrace (scanInit api)
          (cycles ++ [⟨some ⟨200, some ⟨items⟩⟩, elapsed, pri⟩])) := rfl
    have h0 : registryTasks (scanInit api).known = [] := rfl
    rw [hl, ← h0, hr, List.foldl_append]
    simp only [List.foldl_cons, List.foldl_nil, registryTasks, List.length_map]
    have hrun : List.foldl (fun s c => (scanCycle s c).state) (scanInit api) cycles =
        scanRun api cycles := rfl
    rw [hrun, hcyc, hlen]

/-! ## A target whose address changes -/

theorem eventsFor_append (n : String) (a b : List Obs) :
    eventsFor n (a ++ b) = eventsFor n a ++ eventsFor n b := by
  simp [eventsFor]

theorem scanItem_eventsFor_ne (known : Registry) (chans : Nat) (node : Node) (n : String)
    (hinv : RegInv known chans) (hn : node.Name ≠ n) :
    eventsFor n (scanItem known chans node).2 = [] := by
  rcases hget : mapGet known node.Name with _ | val
  · rw [scanItem_new known chans node hget]
    simp [eventsFor, Event.name, hn]
  · by_cases hval : val.Node = node
    · rw [scanItem_same known chans node val hget hval]
      simp [eventsFor]
    · rw [scanItem_changed known chans node val hget hval]
      have hv : val.Node.Name ≠ n := by
        rw [hinv.keyed _ _ hget]
        exact hn
      simp [eventsFor, Event.name, hn, hv]

theorem scanItems_settled (known : Registry) (chans : Nat) (nodes : List Node) (n : String)
    (q : Probe) (hinv : RegInv known chans) (hget : mapGet known n = some q)
    (hall : ∀ node ∈ nodes, node.Name = n → node = q.Node) :
    eventsFor n (scanItems known chans nodes).2 = [] ∧
      ∃ q2, mapGet (scanItems known chans nodes).1.1 n = some q2 ∧ q2.Node = q.Node ∧
        q2.Kill = q.Kill ∧ (n ∈ nodes.map Node.Name → q2.Seen = true) := by
  induction nodes generalizing known chans q with
  | nil => exact ⟨rfl, q, hget, rfl, rfl, by simp⟩
  | cons node rest ih =>
    have hrest : ∀ x ∈ rest, x.Name = n → x = q.Node :=
      fun x hx => hall x (List.mem_cons_of_mem _ hx)
    have hinv1 := (scanItem_ok known chans node hinv).1
    simp only [scanItems]
    rw [eventsFor_append]
    by_cases hn : node.Name = n
    · have hnode : node = q.Node := hall node (List.mem_cons_self _ _) hn
      have hget2 : mapGet known node.Name = some q := by rw [hn]; exact hget
      have hs := scanItem_same known chans node q hget2 hnode.symm
      have hg1 : mapGet (scanItem known chans node).1.1 n = some { q with Seen := true } := by
        rw [hs, ← hn]
        exact mapGet_mapSet_self _ _ _
      obtain ⟨e1, q2, g1, g2, g3, _⟩ := ih (scanItem known chans node).1.1
        (scanItem known chans node).1.2 { q with Seen := true } hinv1 hg1 hrest
      refine ⟨?_, q2, g1, g2, g3, ?_⟩
      · rw [e1, hs]
        simp [eventsFor]
      · intro _
        by_cases hr : n ∈ rest.map Node.Name
        · obtain ⟨p, hp, hps⟩ := scanItems_get_mem (scanItem known chans node).1.1
            (scanItem known chans node).1.2 rest n hr
          rw [hp] at g1
          have hpq : p = q2 := by simpa using g1
          rw [← hpq]
          exact hps
        · rw [scanItems_get_not_mem _ _ _ _ hr, hg1] at g1
          have hpq : ({ q with Seen := true } : Probe) = q2 := by simpa using g1
          rw [← hpq]
    · have hn2 : n ≠ node.Name := fun h => hn h.symm
      have hg1 : mapGet (scanItem known chans node).1.1 n = some q := by
        rw [scanItem_get_ne _ _ _ _ hn2]
        exact hget
      obtain ⟨e1, q2, g1, g2, g3, g4⟩ := ih (scanItem known chans node).1.1
        (scanItem known chans node).1.2 q hinv1 hg1 hrest
      refine ⟨?_, q2, g1, g2, g3, ?_⟩
      · rw [e1, scanItem_eventsFor_ne known chans node n hinv hn]
        rfl
      · intro hmem
        apply g4
        simp only [List.map_cons, List.mem_cons] at hmem
        rcases hmem with h | h
        · exact absurd h hn2
        · exact h

theorem scanItems_changed (known : Registry) (chans : Nat) (nodes : List Node) (n b : String)
    (p : Probe) (hinv : RegInv known chans) (hget : mapGet known n = some p)
    (hab : p.Node.Target ≠ b) (hmem : (⟨n, b⟩ : Node) ∈ nodes)
    (hall : ∀ node ∈ nodes, node.Name = n → node.Target = b) :
    ∃ kill, eventsFor n (scanItems known chans nodes).2 =
        [Event.cancel p.Node p.Kill, Event.start ⟨n, b⟩ kill] ∧
      mapGet (scanItems known chans nodes).1.1 n = some ⟨⟨n, b⟩, kill, true⟩ := by
  induction nodes generalizing known chans with
  | nil => simp at hmem
  | cons node rest ih =>
    have hrest : ∀ x ∈ rest, x.Name = n → x.Target = b :=
      fun x hx => hall x (List.mem_cons_of_mem _ hx)
    have hinv1 := (scanItem_ok known chans node hinv).1
    simp only [scanItems]
    rw [eventsFor_append]
    by_cases hn : node.Name = n
    · have hnode : node = ⟨n, b⟩ := by
        have ht := hall node (List.mem_cons_self _ _) hn
        cases node
        simp only at hn ht
        rw [hn, ht]
      have hget2 : mapGet known node.Name = some p := by rw [hn]; exact hget
      have hval : p.Node ≠ node := by
        intro h
        apply hab
        rw [h, hnode]
      have hs := scanItem_changed known chans node p hget2 hval
      have hg1 : mapGet (scanItem known chans node).1.1 n = some ⟨node, chans, true⟩ := by
        rw [hs, ← hn]
        exact mapGet_mapSet_self _ _ _
      have hrest2 : ∀ x ∈ rest, x.Name = n → x = (⟨node, chans, true⟩ : Probe).Node := by
        intro x hx hxn
        have ht := hrest x hx hxn
        rw [hnode]
        cases x
        simp only at hxn ht
        rw [hxn, ht]
      obtain ⟨e1, q2, g1, g2, g3, _⟩ := scanItems_settled (scanItem known chans node).1.1
        (scanItem known chans node).1.2 rest n ⟨node, chans, true⟩ hinv1 hg1 hrest2
      have hseen : q2.Seen = true := by
        by_cases hr : n ∈ rest.map Node.Name
        · obtain ⟨p2, hp2, hps⟩ := scanItems_get_mem (scanItem known chans node).1.1
            (scanItem known chans node).1.2 rest n hr
          rw [hp2] at g1
          have hpq : p2 = q2 := by simpa using g1
          rw [← hpq]
          exact hps
        · rw [scanItems_get_not_mem _ _ _ _ hr, hg1] at g1
          have hpq : (⟨node, chans, true⟩ : Probe) = q2 := by simpa using g1
          rw [← hpq]
      refine ⟨chans, ?_, ?_⟩
      · have hpn : p.Node.Name = n := hinv.keyed _ _ hget
        rw [e1, hs, hnode]
        simp [eventsFor, Event.name, hpn]
      · rw [g1]
        cases q2
        simp only at g2 g3 hseen
        rw [g2, g3, hseen, hnode]
    · have hn2 : n ≠ node.Name := fun h => hn h.symm
      have hg1 : mapGet (scanItem known chans node).1.1 n = some p := by
        rw [scanItem_get_ne _ _ _ _ hn2]
        exact hget
      have hmem2 : (⟨n, b⟩ : Node) ∈ rest := by
        rcases List.mem_cons.mp hmem with h | h
        · exact absurd (by rw [← h]) hn
        · exact h
      obtain ⟨kill, e1, g1⟩ := ih (scanItem known chans node).1.1
        (scanItem known chans node).1.2 hinv1 hg1 hmem2 hrest
      refine ⟨kill, ?_, g1⟩
      rw [e1, scanItem_eventsFor_ne known chans node n hinv hn]
      rfl

theorem sweepKey_eventsFor_ne (known : Registry) (chans : Nat) (key n : String)
    (hinv : RegInv known chans) (hn : key ≠ n) :
    eventsFor n (sweepKey known key).2 = [] := by
  unfold sweepKey
  rcases hget : mapGet known key with _ | p
  · simp [eventsFor]
  · have hp : p.Node.Name ≠ n := by
      rw [hinv.keyed _ _ hget]
      exact hn
    by_cases hseen : p.Seen = true
    · simp [hseen, eventsFor]
    · simp [hseen, eventsFor, Event.name, hp]

theorem sweepKeys_eventsFor_seen (known : Registry) (chans : Nat) (keys : List String)
    (n : String) (q : Probe) (hinv : RegInv known chans) (hnd : keys.Nodup)
    (hq : n ∈ keys → mapGet known n = some q ∧ q.Seen = true) :
    eventsFor n (sweepKeys known keys).2 = [] := by
  induction keys generalizing known with
  | nil => simp [sweepKeys, eventsFor]
  | cons key rest ih =>
    rw [List.nodup_cons] at hnd
    have hinv1 := (sweepKey_ok known chans key hinv).1
    simp only [sweepKeys]
    rw [eventsFor_append]
    by_cases hk : key = n
    · subst hk
      obtain ⟨hg, hs⟩ := hq (List.mem_cons_self _ _)
      have e0 : eventsFor key (sweepKey known key).2 = [] := by
        simp [sweepKey, hg, hs, eventsFor]
      rw [e0, ih _ hinv1 hnd.2 (fun h => absurd h hnd.1)]
      rfl
    · rw [sweepKey_eventsFor_ne known chans key n hinv hk]
      have hk2 : n ≠ key := fun h => hk h.symm
      rw [ih _ hinv1 hnd.2]
      · rfl
      · intro h
        rw [sweepKey_get]
        simp only [hk2, if_false]
        exact hq (List.mem_cons_of_mem _ h)

/-- C3 as stated fails: with `n1` registered at `1.1.1.1:7` and a fetched list
holding `n1` twice, at `1.1.1.2:7` and at `1.1.1.3:7`, the reconciliation cancels
and starts a probe for `n1` twice, and `n1` ends registered at `1.1.1.3:7`, not at
the new address `1.1.1.2:7` named in the claim. -/
theorem reconcile_repeated_name_restarts_twice :
    mapGet [("n1", (⟨⟨"n1", "1.1.1.1:7"⟩, 0, false⟩ : Probe))] "n1" =
        some ⟨⟨"n1", "1.1.1.1:7"⟩, 0, false⟩ ∧
      (⟨"n1", "1.1.1.2:7"⟩ : Node) ∈
        [hostItem "n1" "1.1.1.2" 7, hostItem "n1" "1.1.1.3" 7].map itemNode ∧
      eventsFor "n1" (reconcile [("n1", ⟨⟨"n1", "1.1.1.1:7"⟩, 0, false⟩)] 1
          [hostItem "n1" "1.1.1.2" 7, hostItem "n1" "1.1.1.3" 7] []).2 =
        [Event.cancel ⟨"n1", "1.1.1.1:7"⟩ 0, Event.start ⟨"n1", "1.1.1.2:7"⟩ 1,
          Event.cancel ⟨"n1", "1.1.1.2:7"⟩ 1, Event.start ⟨"n1", "1.1.1.3:7"⟩ 2] ∧
      mapGet (reconcile [("n1", ⟨⟨"n1", "1.1.1.1:7"⟩, 0, false⟩)] 1
          [hostItem "n1" "1.1.1.2" 7, hostItem "n1" "1.1.1.3" 7] []).1.1 "n1" =
        some ⟨⟨"n1", "1.1.1.3:7"⟩, 2, false⟩ ∧
      ¬ ∃ kill kill2,
        eventsFor "n1" (reconcile [("n1", ⟨⟨"n1", "1.1.1.1:7"⟩, 0, false⟩)] 1
            [hostItem "n1" "1.1.1.2" 7, hostItem "n1" "1.1.1.3" 7] []).2 =
          [Event.cancel ⟨"n1", "1.1.1.1:7"⟩ kill, Event.start ⟨"n1", "1.1.1.2:7"⟩ kill2] := by
  refine ⟨by decide, by decide, by decide, by decide, ?_⟩
  rintro ⟨kill, kill2, h⟩
  have he : eventsFor "n1" (reconcile [("n1", ⟨⟨"n1", "1.1.1.1:7"⟩, 0, false⟩)] 1
      [hostItem "n1" "1.1.1.2" 7, hostItem "n1" "1.1.1.3" 7] []).2 =
      [Event.cancel ⟨"n1", "1.1.1.1:7"⟩ 0, Event.start ⟨"n1", "1.1.1.2:7"⟩ 1,
        Event.cancel ⟨"n1", "1.1.1.2:7"⟩ 1, Event.start ⟨"n1", "1.1.1.3:7"⟩ 2] := by decide
  rw [he] at h
  simp at h

/-- C3, amended: for every registry built by scan in which the name n is
registered with an address other than b, and every fetched list that holds a
target named n and in which every target named n has the address b, the
reconciliation performs for n exactly one cancel, of the Probe registered
before, followed by exactly one start, for the Node with address b, and
afterwards n is registered with that Node and the Kill channel of the Probe
started. -/
theorem reconcile_address_change (known : Registry) (chans : Nat) (items : List NodeItem)
    (pri : List String) (n b : String) (p : Probe)
    (hinv : RegInv known chans) (hget : mapGet known n = some p)
    (hab : p.Node.Target ≠ b) (hmem : (⟨n, b⟩ : Node) ∈ items.map itemNode)
    (hall : ∀ node ∈ items.map itemNode, node.Name = n → node.Target = b) :
    ∃ kill, eventsFor n (reconcile known chans items pri).2 =
        [Event.cancel p.Node p.Kill, Event.start ⟨n, b⟩ kill] ∧
      mapGet (reconcile known chans items pri).1.1 n = some ⟨⟨n, b⟩, kill, false⟩ := by
  obtain ⟨kill, e1, g1⟩ := scanItems_changed known chans (items.map itemNode) n b p hinv hget
    hab hmem hall
  have hinv1 := (scanItems_ok known chans (items.map itemNode) hinv).1
  refine ⟨kill, ?_, ?_⟩
  · simp only [reconcile]
    rw [eventsFor_append, e1]
    have h0 : eventsFor n (sweep (scanItems known chans (items.map itemNode)).1.1 pri).2 = [] :=
      sweepKeys_eventsFor_seen _ _ _ n ⟨⟨n, b⟩, kill, true⟩ hinv1
        (rangeOrder_nodup pri _ hinv1.nodup) (fun _ => ⟨g1, rfl⟩)
    rw [h0]
    rfl
  · simp only [reconcile]
    rw [sweep_get _ _ _ hinv1.nodup, g1]
    simp [sweepProbe]

/-- C3, amended, at a concrete input: the registry left by a first cycle that
found `n1` at `1.1.1.1:7` and `n2`, and a list in which `n1` is at `1.1.1.2:7`. -/
theorem reconcile_address_change_witness :
    RegInv (scanRun "x" [fetched [hostItem "n1" "1.1.1.1" 7, hostItem "n2" "2.2.2.2" 7]]).known
        (scanRun "x" [fetched [hostItem "n1" "1.1.1.1" 7, hostItem "n2" "2.2.2.2" 7]]).chans ∧
      mapGet (scanRun "x" [fetched [hostItem "n1" "1.1.1.1" 7,
        hostItem "n2" "2.2.2.2" 7]]).known "n1" = some ⟨⟨"n1", "1.1.1.1:7"⟩, 0, false⟩ ∧
      (⟨⟨"n1", "1.1.1.1:7"⟩, 0, false⟩ : Probe).Node.Target ≠ "1.1.1.2:7" ∧
      (⟨"n1", "1.1.1.2:7"⟩ : Node) ∈
        [hostItem "n2" "2.2.2.2" 7, hostItem "n1" "1.1.1.2" 7].map itemNode ∧
      ∃ kill,
        eventsFor "n1" (reconcile
            (scanRun "x" [fetched [hostItem "n1" "1.1.1.1" 7, hostItem "n2" "2.2.2.2" 7]]).known
            (scanRun "x" [fetched [hostItem "n1" "1.1.1.1" 7, hostItem "n2" "2.2.2.2" 7]]).chans
            [hostItem "n2" "2.2.2.2" 7, hostItem "n1" "1.1.1.2" 7] []).2 =
          [Event.cancel (⟨⟨"n1", "1.1.1.1:7"⟩, 0, false⟩ : Probe).Node
              (⟨⟨"n1", "1.1.1.1:7"⟩, 0, false⟩ : Probe).Kill,
            Event.start ⟨"n1", "1.1.1.2:7"⟩ kill] ∧
        mapGet (reconcile
            (scanRun "x" [fetched [hostItem "n1" "1.1.1.1" 7, hostItem "n2" "2.2.2.2" 7]]).known
            (scanRun "x" [fetched [hostItem "n1" "1.1.1.1" 7, hostItem "n2" "2.2.2.2" 7]]).chans
            [hostItem "n2" "2.2.2.2" 7, hostItem "n1" "1.1.1.2" 7] []).1.1 "n1" =
          some ⟨⟨"n1", "1.1.1.2:7"⟩, kill, false⟩ :=
  ⟨scanRun_inv _ _, by decide, by decide, by decide,
    reconcile_address_change _ _ [hostItem "n2" "2.2.2.2" 7, hostItem "n1" "1.1.1.2" 7] []
      "n1" "1.1.1.2:7" ⟨⟨"n1", "1.1.1.1:7"⟩, 0, false⟩ (scanRun_inv _ _) (by decide)
      (by decide) (by decide) (by decide)⟩

/-! ## Failed fetches and the metric of scan -/

/-- C4: for every registry and every failed fetch (request error, status other
than 200, or a body that fails to decode), the cycle performs no start and no
cancel, and leaves the registry `known` (and the count of channels made)
exactly as it was. -/
theorem scan_failed_fetch_keeps_registry (st : ScanState) (c : Cycle)
    (hfail : c.reply = none ∨ ∃ r, c.reply = some r ∧ (r.StatusCode ≠ 200 ∨ r.body = none)) :
    (scanCycle st c).trace = [] ∧ (scanCycle st c).state.known = st.known ∧
      (scanCycle st c).state.chans = st.chans := by
  rcases hfail with h | ⟨r, h, hr⟩
  · simp [scanCycle, h]
  · by_cases hs : r.StatusCode = 200
    · have hb : r.body = none := by
        rcases hr with hr | hr
        · exact absurd hs hr
        · exact hr
      simp [scanCycle, h, hs, hb]
    · simp [scanCycle, h, hs]

/-- C4 at a concrete input: a registry holding two probes and a reply with
status 200 whose body does not decode. -/
theorem scan_failed_fetch_keeps_registry_witness :
    ((⟨some ⟨200, none⟩, 3, []⟩ : Cycle).reply = none ∨
        ∃ r, (⟨some ⟨200, none⟩, 3, []⟩ : Cycle).reply = some r ∧
          (r.StatusCode ≠ 200 ∨ r.body = none)) ∧
      (scanCycle
          (scanRun "x" [fetched [hostItem "n1" "1.1.1.1" 7, hostItem "n2" "2.2.2.2" 7]])
          ⟨some ⟨200, none⟩, 3, []⟩).trace = [] ∧
      (scanCycle
          (scanRun "x" [fetched [hostItem "n1" "1.1.1.1" 7, hostItem "n2" "2.2.2.2" 7]])
          ⟨some ⟨200, none⟩, 3, []⟩).state.known =
        [("n1", ⟨⟨"n1", "1.1.1.1:7"⟩, 0, false⟩), ("n2", ⟨⟨"n2", "2.2.2.2:7"⟩, 1, false⟩)] :=
  ⟨Or.inr ⟨⟨200, none⟩, rfl, Or.inr rfl⟩,
    (scan_failed_fetch_keeps_registry _ ⟨some ⟨200, none⟩, 3, []⟩
      (Or.inr ⟨⟨200, none⟩, rfl, Or.inr rfl⟩)).1,
    (scan_failed_fetch_keeps_registry _ ⟨some ⟨200, none⟩, 3, []⟩
      (Or.inr ⟨⟨200, none⟩, rfl, Or.inr rfl⟩)).2.1.trans (by decide)⟩

theorem scanCycle_sent (st : ScanState) (c : Cycle) :
    (scanCycle st c).sent = [(scanCycle st c).state.metric] := by
  unfold scanCycle
  split
  · rfl
  · split
    · rfl
    · split <;> rfl

theorem scanSent_append (st : ScanState) (cs ds : List Cycle) :
    scanSent st (cs ++ ds) =
      scanSent st cs ++ scanSent (cs.foldl (fun s c => (scanCycle s c).state) st) ds := by
  induction cs generalizing st with
  | nil => simp [scanSent]
  | cons c cs ih => simp [scanSent, ih, List.append_assoc]

theorem scanSent_getLastD (st : ScanState) (cs : List Cycle) :
    (scanSent st cs).getLastD st.metric =
      (cs.foldl (fun s c => (scanCycle s c).state) st).metric := by
  induction cs using List.reverseRecOn with
  | nil => simp [scanSent]
  | append_singleton cs c _ =>
    rw [scanSent_append]
    simp [scanSent, scanCycle_sent, List.getLastD_eq_getLast?]

theorem scanCycle_node (st : ScanState) (c : Cycle) :
    (scanCycle st c).state.metric.Node = st.metric.Node := by
  unfold scanCycle
  split
  · rfl
  · split
    · rfl
    · split <;> rfl

theorem scanRun_node (api : String) (cs : List Cycle) :
    (scanRun api cs).metric.Node = ⟨"API", api⟩ := by
  unfold scanRun
  induction cs using List.reverseRecOn with
  | nil => rfl
  | append_singleton cs c ih => simp [List.foldl_append, scanCycle_node, ih]

/-- C5 as stated fails: a reply with status 200 whose body does not decode makes
scan send a metric with Reply one higher and Lost unchanged, not one with Lost one
higher and Reply unchanged. -/
theorem scan_parse_error_counts_reply :
    (scanCycle (scanInit "x") ⟨some ⟨200, none⟩, 5, []⟩).sent = [⟨⟨"API", "x"⟩, 1, 0, 5⟩] ∧
      ¬ ∃ e, (scanCycle (scanInit "x") ⟨some ⟨200, none⟩, 5, []⟩).sent = [e] ∧
          e.Lost = (scanInit "x").metric.Lost + 1 ∧ e.Reply = (scanInit "x").metric.Reply := by
  refine ⟨by decide, ?_⟩
  rintro ⟨e, he, h1, _⟩
  have h : (scanCycle (scanInit "x") ⟨some ⟨200, none⟩, 5, []⟩).sent = [⟨⟨"API", "x"⟩, 1, 0, 5⟩] := by
    decide
  rw [h] at he
  have he2 : e = ⟨⟨"API", "x"⟩, 1, 0, 5⟩ := by simpa using he.symm
  subst he2
  revert h1
  decide

/-- C5, amended: in every scan cycle exactly one metric is sent, it carries the
Node `API`, and compared with the previous metric sent (the zero counters before
the first) it has Reply one higher, Lost unchanged and Time increased by the
fetch duration if and only if the request returned with status 200, whether or
not the body then decodes; for a request error or another status it has Lost
one higher and Reply and Time unchanged. -/
theorem scan_cycle_sends_one_metric (api : String) (cycles : List Cycle) (c : Cycle) :
    ∃ e, (scanCycle (scanRun api cycles) c).sent = [e] ∧
      scanSent (scanInit api) (cycles ++ [c]) = scanSent (scanInit api) cycles ++ [e] ∧
      e.Node = ⟨"API", api⟩ ∧
      ((e.Reply = ((scanSent (scanInit api) cycles).getLastD (scanInit api).metric).Reply + 1 ∧
          e.Lost = ((scanSent (scanInit api) cycles).getLastD (scanInit api).metric).Lost ∧
          e.Time =
            ((scanSent (scanInit api) cycles).getLastD (scanInit api).metric).Time + c.elapsed) ↔
        ∃ r, c.reply = some r ∧ r.StatusCode = 200) ∧
      ((e.Lost = ((scanSent (scanInit api) cycles).getLastD (scanInit api).metric).Lost + 1 ∧
          e.Reply = ((scanSent (scanInit api) cycles).getLastD (scanInit api).metric).Reply ∧
          e.Time = ((scanSent (scanInit api) cycles).getLastD (scanInit api).metric).Time) ↔
        (c.reply = none ∨ ∃ r, c.reply = some r ∧ r.StatusCode ≠ 200)) := by
  refine ⟨(scanCycle (scanRun api cycles) c).state.metric, scanCycle_sent _ _, ?_, ?_, ?_⟩
  · rw [scanSent_append]
    simp [scanSent, scanCycle_sent, scanRun]
  · rw [scanCycle_node, scanRun_node]
  · rw [scanSent_getLastD]
    change (_ ↔ _) ∧ (_ ↔ _)
    have hrun : List.foldl (fun s c => (scanCycle s c).state) (scanInit api) cycles =
        scanRun api cycles := rfl
    rw [hrun]
    generalize scanRun api cycles = st
    rcases hc : c.reply with _ | r
    · simp [scanCycle, hc]
    · by_cases hs : r.StatusCode = 200
      · rcases hb : r.body with _ | nodes
        · simp [scanCycle, hc, hs, hb]
        · simp [scanCycle, hc, hs, hb]
      · simp [scanCycle, hc, hs]

/-! ## probe -/

theorem probeSent_append (m : Metric) (ds es : List (Option Int)) :
    probeSent m (ds ++ es) = probeSent m ds ++ probeSent (ds.foldl probeTick m) es := by
  induction ds generalizing m with
  | nil => simp [probeSent]
  | cons d ds ih => simp [probeSent, ih]

theorem probeSent_length (m : Metric) (ds : List (Option Int)) :
    (probeSent m ds).length = ds.length := by
  induction ds generalizing m with
  | nil => simp [probeSent]
  | cons d ds ih => simp [probeSent, ih]

theorem probeSent_getLastD (m : Metric) (ds : List (Option Int)) :
    (probeSent m ds).getLastD m = ds.foldl probeTick m := by
  induction ds using List.reverseRecOn with
  | nil => simp [probeSent]
  | append_singleton ds d _ =>
    rw [probeSent_append]
    simp [probeSent, List.getLastD_eq_getLast?]

theorem probeTick_node (m : Metric) (d : Option Int) : (probeTick m d).Node = m.Node := by
  cases d <;> rfl

theorem probeTick_sum (m : Metric) (d : Option Int) :
    (probeTick m d).Reply + (probeTick m d).Lost = m.Reply + m.Lost + 1 := by
  cases d <;> simp [probeTick] <;> ring

theorem probeFold_node (m : Metric) (ds : List (Option Int)) :
    (ds.foldl probeTick m).Node = m.Node := by
  induction ds generalizing m with
  | nil => rfl
  | cons d ds ih => simp [ih, probeTick_node]

theorem probeFold_sum (m : Metric) (ds : List (Option Int)) :
    (ds.foldl probeTick m).Reply + (ds.foldl probeTick m).Lost =
      m.Reply + m.Lost + (ds.length : Nat) := by
  induction ds generalizing m with
  | nil => simp
  | cons d ds ih =>
    simp only [List.foldl_cons, ih, probeTick_sum, List.length_cons]
    push_cast
    ring

/-- C8: a probe goroutine sends exactly one metric per tick it handles, carrying
the Node it was started with.  Compared with the previous metric it sent (the
zero counters before the first), a failed dial gives Lost one higher with Reply
and Time unchanged, a successful dial gives Reply one higher, Time increased
by the elapsed milliseconds and Lost unchanged.  After k ticks, Reply + Lost = k. -/
theorem probe_tick_sends_one_metric (node : Probe) (dials : List (Option Int))
    (dial : Option Int) :
    ∃ e, probeRun node (dials ++ [dial]) = probeRun node dials ++ [e] ∧
      e.Node = node.Node ∧
      (dial = none →
        e.Lost = ((probeRun node dials).getLastD (probeInit node)).Lost + 1 ∧
          e.Reply = ((probeRun node dials).getLastD (probeInit node)).Reply ∧
          e.Time = ((probeRun node dials).getLastD (probeInit node)).Time) ∧
      (∀ ms, dial = some ms →
        e.Reply = ((probeRun node dials).getLastD (probeInit node)).Reply + 1 ∧
          e.Time = ((probeRun node dials).getLastD (probeInit node)).Time + ms ∧
          e.Lost = ((probeRun node dials).getLastD (probeInit node)).Lost) ∧
      (probeRun node (dials ++ [dial])).length = dials.length + 1 ∧
      e.Reply + e.Lost = ((dials.length + 1 : Nat) : Int) := by
  refine ⟨probeTick (dials.foldl probeTick (probeInit node)) dial, ?_, ?_, ?_, ?_, ?_, ?_⟩
  · simp [probeRun, probeSent_append, probeSent]
  · rw [probeTick_node, probeFold_node]
    rfl
  · intro h
    subst h
    have hl : (probeRun node dials).getLastD (probeInit node) =
        dials.foldl probeTick (probeInit node) := probeSent_getLastD _ _
    rw [hl]
    simp [probeTick]
  · intro ms h
    subst h
    have hl : (probeRun node dials).getLastD (probeInit node) =
        dials.foldl probeTick (probeInit node) := probeSent_getLastD _ _
    rw [hl]
    simp [probeTick]
  · simp [probeRun, probeSent_length]
  · rw [probeTick_sum, probeFold_sum]
    simp [probeInit]

/-! ## collect -/

/-- C7 as stated fails.  After collect has received a metric of `API` and one of
`n1`, a tick leaves no entry for `n1` in the snapshot (the entry is removed, not
kept with zero counters); and from the empty snapshot, which holds no entry for
`API`, a tick leaves one, so the snapshot does not hold for `API` exactly what it
held before. -/
theorem collect_tick_removes_regular_entries :
    (mapGet (collectRun [CollectStep.metric ⟨⟨"API", "x"⟩, 1, 0, 5⟩,
          CollectStep.metric ⟨⟨"n1", "1.1.1.1:7"⟩, 1, 0, 3⟩]) "n1" =
        some ⟨⟨"n1", "1.1.1.1:7"⟩, 1, 0, 3⟩ ∧
      mapGet (collectTick (collectRun [CollectStep.metric ⟨⟨"API", "x"⟩, 1, 0, 5⟩,
          CollectStep.metric ⟨⟨"n1", "1.1.1.1:7"⟩, 1, 0, 3⟩])).2 "n1" = none ∧
      ¬ ∃ m, mapGet (collectTick (collectRun [CollectStep.metric ⟨⟨"API", "x"⟩, 1, 0, 5⟩,
          CollectStep.metric ⟨⟨"n1", "1.1.1.1:7"⟩, 1, 0, 3⟩])).2 "n1" = some m ∧
        m.Reply = 0 ∧ m.Lost = 0 ∧ m.Time = 0) ∧
      (mapGet (collectRun []) "API" = none ∧
        mapGet (collectTick (collectRun [])).2 "API" = some ⟨⟨"", ""⟩, 0, 0, 0⟩ ∧
        mapGet (collectTick (collectRun [])).2 "API" ≠ mapGet (collectRun []) "API") := by
  refine ⟨⟨by decide, by decide, ?_⟩, by decide, by decide, by decide⟩
  rintro ⟨m, hm, _⟩
  have hnone : mapGet (collectTick (collectRun [CollectStep.metric ⟨⟨"API", "x"⟩, 1, 0, 5⟩,
      CollectStep.metric ⟨⟨"n1", "1.1.1.1:7"⟩, 1, 0, 3⟩])).2 "n1" = none := by decide
  rw [hnone] at hm
  exact Option.noConfusion hm

/-- C7, amended: after a tick of the ticker of collect the snapshot holds no
entry for any name other than `API`, so that such a name reads zero Reply, Lost
and Time through the index expression of Go, and, when the snapshot held an
entry for `API` before the tick, it holds exactly that entry afterwards; after a
second tick with no metric in between the same holds again: a regular target
has no entry and reads zero counters, and the entry of `API` is the one held
before the first tick. -/
theorem collect_tick_keeps_only_api (known : Snapshot) (name : String)
    (hname : name ≠ "API") :
    mapGet (collectTick known).2 name = none ∧
      ((mapIndex (collectTick known).2 name).Reply = 0 ∧
        (mapIndex (collectTick known).2 name).Lost = 0 ∧
        (mapIndex (collectTick known).2 name).Time = 0) ∧
      (∀ m, mapGet known "API" = some m → mapGet (collectTick known).2 "API" = some m) ∧
      mapGet (collectTick (collectTick known).2).2 name = none ∧
      ((mapIndex (collectTick (collectTick known).2).2 name).Reply = 0 ∧
        (mapIndex (collectTick (collectTick known).2).2 name).Lost = 0 ∧
        (mapIndex (collectTick (collectTick known).2).2 name).Time = 0) ∧
      (∀ m, mapGet known "API" = some m →
        mapGet (collectTick (collectTick known).2).2 "API" = some m) := by
  have hne : ¬ ("API" = name) := fun h => hname h.symm
  have h0 : ∀ k : Snapshot, mapGet (collectTick k).2 name = none := by
    intro k
    simp [collectTick, mapSet, mapGet, hne]
  have h1 : ∀ k : Snapshot, mapIndex (collectTick k).2 name = zeroMetric := by
    intro k
    simp [mapIndex, h0 k]
  have h2 : ∀ (k : Snapshot) (m : Metric), mapGet k "API" = some m →
      mapGet (collectTick k).2 "API" = some m := by
    intro k m hm
    simp [collectTick, mapIndex, mapSet, mapGet, hm]
  refine ⟨h0 known, ?_, h2 known, h0 _, ?_, ?_⟩
  · rw [h1]; simp [zeroMetric]
  · rw [h1]; simp [zeroMetric]
  · intro m hm
    exact h2 _ m (h2 known m hm)

/-- C7, amended, at a concrete input: a snapshot holding `n1` and `API`. -/
theorem collect_tick_keeps_only_api_witness :
    "n1" ≠ "API" ∧
      mapGet (collectTick [("n1", ⟨⟨"n1", "1.1.1.1:7"⟩, 3, 1, 40⟩),
        ("API", ⟨⟨"API", "x"⟩, 9, 2, 70⟩)]).2 "n1" = none ∧
      mapGet (collectTick [("n1", (⟨⟨"n1", "1.1.1.1:7"⟩, 3, 1, 40⟩ : Metric)),
        ("API", ⟨⟨"API", "x"⟩, 9, 2, 70⟩)]).2 "API" = some ⟨⟨"API", "x"⟩, 9, 2, 70⟩ ∧
      mapGet (collectTick (collectTick [("n1", (⟨⟨"n1", "1.1.1.1:7"⟩, 3, 1, 40⟩ : Metric)),
        ("API", ⟨⟨"API", "x"⟩, 9, 2, 70⟩)]).2).2 "API" = some ⟨⟨"API", "x"⟩, 9, 2, 70⟩ :=
  ⟨by decide,
    (collect_tick_keeps_only_api [("n1", ⟨⟨"n1", "1.1.1.1:7"⟩, 3, 1, 40⟩),
      ("API", ⟨⟨"API", "x"⟩, 9, 2, 70⟩)] "n1" (by decide)).1,
    (collect_tick_keeps_only_api [("n1", ⟨⟨"n1", "1.1.1.1:7"⟩, 3, 1, 40⟩),
      ("API", ⟨⟨"API", "x"⟩, 9, 2, 70⟩)] "n1" (by decide)).2.2.1 _ (by decide),
    (collect_tick_keeps_only_api [("n1", ⟨⟨"n1", "1.1.1.1:7"⟩, 3, 1, 40⟩),
      ("API", ⟨⟨"API", "x"⟩, 9, 2, 70⟩)] "n1" (by decide)).2.2.2.2.2 _ (by decide)⟩

theorem collectRun_keys (steps : List CollectStep) (k : String) (m : Metric)
    (hget : mapGet (collectRun steps) k = some m) :
    m.Node.Name = k ∨ (k = "API" ∧ m = zeroMetric) := by
  induction steps using List.reverseRecOn generalizing k m with
  | nil => simp [collectRun, mapGet] at hget
  | append_singleton steps s ih =>
    have hrun : collectRun (steps ++ [s]) = collectStep (collectRun steps) s := by
      simp [collectRun, List.foldl_append]
    rw [hrun] at hget
    cases s with
    | metric x =>
      simp only [collectStep, collectMetric] at hget
      by_cases hk : k = x.Node.Name
      · subst hk
        rw [mapGet_mapSet_self] at hget
        left
        have hx : x = m := by simpa using hget
        rw [← hx]
      · rw [mapGet_mapSet_ne _ _ _ _ hk] at hget
        exact ih k m hget
    | tick =>
      simp only [collectStep, collectTick] at hget
      by_cases hk : k = "API"
      · subst hk
        rw [mapGet_mapSet_self] at hget
        have hm : mapIndex (collectRun steps) "API" = m := by simpa using hget
        rcases hq : mapGet (collectRun steps) "API" with _ | q
        · right
          refine ⟨rfl, ?_⟩
          rw [← hm]
          simp [mapIndex, hq]
        · have hmq : m = q := by
            rw [← hm]
            simp [mapIndex, hq]
          rw [hmq]
          exact ih "API" q hq
      · rw [mapGet_mapSet_ne _ _ _ _ hk] at hget
        simp [mapGet] at hget

/-- C10 fails on the code: when the ticker of collect fires before any metric of
scan has been received, the zero Metric, whose Node.Name is empty, is stored under
the key `API`. -/
theorem collect_tick_stores_zero_metric_under_api :
    collectRun [CollectStep.tick] = [("API", ⟨⟨"", ""⟩, 0, 0, 0⟩)] ∧
      ¬ ∀ e ∈ collectRun [CollectStep.tick], e.2.Node.Name = e.1 := by
  decide

/-! ## probe composed with collect -/

theorem probeFold_counts (m : Metric) (ds : List (Option Int)) :
    ds.foldl probeTick m =
      ⟨m.Node, m.Reply + countReply ds, m.Lost + countLost ds, m.Time + sumTime ds⟩ := by
  induction ds generalizing m with
  | nil => simp [countReply, countLost, sumTime]
  | cons d ds ih =>
    rw [List.foldl_cons, ih]
    cases d with
    | none =>
      simp [probeTick, countReply, countLost, sumTime]
      ring
    | some ms =>
      simp [probeTick, countReply, countLost, sumTime]
      constructor <;> ring

theorem pipeFold_metric (s : Pipe) (steps : List PipeStep) :
    (steps.foldl pipeStep s).metric = (attemptsOf steps).foldl probeTick s.metric := by
  induction steps generalizing s with
  | nil => rfl
  | cons x xs ih => cases x <;> simp [attemptsOf, ih, pipeStep]

theorem pipeFold_attempts_known (s : Pipe) (w : List (Option Int)) :
    mapGet ((w.map PipeStep.attempt).foldl pipeStep s).known s.metric.Node.Name =
      if w = [] then mapGet s.known s.metric.Node.Name else some (w.foldl probeTick s.metric) := by
  induction w generalizing s with
  | nil => simp
  | cons d w ih =>
    simp only [List.map_cons, List.foldl_cons]
    have hn : (pipeStep s (PipeStep.attempt d)).metric.Node.Name = s.metric.Node.Name := by
      simp [pipeStep, probeTick_node]
    have h := ih (pipeStep s (PipeStep.attempt d))
    rw [hn] at h
    rw [h]
    by_cases hw : w = []
    · subst hw
      have hk : (pipeStep s (PipeStep.attempt d)).known =
          mapSet s.known (probeTick s.metric d).Node.Name (probeTick s.metric d) := rfl
      rw [hk, probeTick_node]
      simp [mapGet_mapSet_self]
    · simp [hw, pipeStep]

theorem pipeRun_after_tick (node : Probe) (steps : List PipeStep) (name : String)
    (hname : name ≠ "API")
    (hsteps : steps = [] ∨ steps.getLast? = some PipeStep.tick) :
    mapGet (pipeRun node steps).known name = none := by
  rcases hsteps with h | h
  · subst h
    rfl
  · obtain ⟨ys, hys⟩ : ∃ ys, steps = ys ++ [PipeStep.tick] := by
      rcases List.eq_nil_or_concat steps with h0 | ⟨ys, y, hy⟩
      · subst h0
        simp at h
      · subst hy
        simp at h
        exact ⟨ys, by simp [h]⟩
    subst hys
    have hne : ¬ ("API" = name) := fun h2 => hname h2.symm
    simp [pipeRun, List.foldl_append, pipeStep, collectTick, mapSet, mapGet, hne]

/-- C6 as stated fails: after one successful attempt and a tick, a second
successful attempt of 7 ms is the only metric received before the next tick, yet
the report published at that tick shows Reply 2 and Time 12 for the target, not
the one reply and 7 ms of that window. -/
theorem pipeline_report_not_windowed :
    ((pipeRun ⟨⟨"n1", "1.1.1.1:7"⟩, 0, false⟩
        [PipeStep.attempt (some 5), PipeStep.tick, PipeStep.attempt (some 7),
          PipeStep.tick]).reports.getLast?.map (fun snap => mapGet snap "n1")) =
        some (some ⟨⟨"n1", "1.1.1.1:7"⟩, 2, 0, 12⟩) ∧
      ¬ ((pipeRun ⟨⟨"n1", "1.1.1.1:7"⟩, 0, false⟩
        [PipeStep.attempt (some 5), PipeStep.tick, PipeStep.attempt (some 7),
          PipeStep.tick]).reports.getLast?.map (fun snap => mapGet snap "n1")) =
        some (some ⟨⟨"n1", "1.1.1.1:7"⟩, countReply [some 7], countLost [some 7],
          sumTime [some 7]⟩) := by
  decide

/-- C6, amended: for every regular target and every sequence of attempts and
ticks, the report published at a tick shows for the target the numbers of
successful and failed attempts and the summed latency of all attempts its probe
has made so far (not only those since the previous tick), provided at least one
of its metrics was received since the previous tick; otherwise the report has
no entry for the target. -/
theorem pipeline_report_is_cumulative (node : Probe) (steps : List PipeStep)
    (w : List (Option Int)) (hreg : node.Node.Name ≠ "API")
    (hsteps : steps = [] ∨ steps.getLast? = some PipeStep.tick) :
    ∃ snap,
      (pipeRun node (steps ++ w.map PipeStep.attempt ++ [PipeStep.tick])).reports.getLast? =
          some snap ∧
        mapGet snap node.Node.Name =
          if w = [] then none
          else some ⟨node.Node, countReply (attemptsOf steps ++ w),
            countLost (attemptsOf steps ++ w), sumTime (attemptsOf steps ++ w)⟩ := by
  refine ⟨((w.map PipeStep.attempt).foldl pipeStep (pipeRun node steps)).known, ?_, ?_⟩
  · simp [pipeRun, List.foldl_append, pipeStep, collectTick]
  · have hnode : (pipeRun node steps).metric.Node = node.Node := by
      rw [pipeRun, pipeFold_metric, probeFold_node]
      rfl
    have h := pipeFold_attempts_known (pipeRun node steps) w
    rw [hnode] at h
    rw [h, pipeRun_after_tick node steps _ hreg hsteps]
    by_cases hw : w = []
    · simp [hw]
    · simp only [hw, if_false]
      rw [pipeRun, pipeFold_metric, ← List.foldl_append, probeFold_counts]
      simp [probeInit]

/-- C6, amended, at a concrete input: the second report of a run of two
attempts separated by a tick. -/
theorem pipeline_report_is_cumulative_witness :
    (⟨⟨"n1", "1.1.1.1:7"⟩, 0, false⟩ : Probe).Node.Name ≠ "API" ∧
      ([PipeStep.attempt (some 5), PipeStep.tick] = [] ∨
        [PipeStep.attempt (some 5), PipeStep.tick].getLast? = some PipeStep.tick) ∧
      ∃ snap,
        (pipeRun ⟨⟨"n1", "1.1.1.1:7"⟩, 0, false⟩
            ([PipeStep.attempt (some 5), PipeStep.tick] ++ [some 7].map PipeStep.attempt ++
              [PipeStep.tick])).reports.getLast? = some snap ∧
          mapGet snap "n1" =
            if [some (7 : Int)] = [] then none
            else some ⟨⟨"n1", "1.1.1.1:7"⟩,
              countReply (attemptsOf [PipeStep.attempt (some 5), PipeStep.tick] ++ [some 7]),
              countLost (attemptsOf [PipeStep.attempt (some 5), PipeStep.tick] ++ [some 7]),
              sumTime (attemptsOf [PipeStep.attempt (some 5), PipeStep.tick] ++ [some 7])⟩ :=
  ⟨by decide, Or.inr rfl,
    pipeline_report_is_cumulative ⟨⟨"n1", "1.1.1.1:7"⟩, 0, false⟩
      [PipeStep.attempt (some 5), PipeStep.tick] [some 7] (by decide) (Or.inr rfl)⟩

/-! ## The Board shared by collect and publish -/

theorem handlers_filter_length (l : List (Nat × Bool)) (r : Nat) (b : Bool)
    (hnd : (l.map Prod.fst).Nodup) (hmem : (r, b) ∈ l) :
    (l.filter (fun h => h.1 ≠ r)).length = l.length - 1 := by
  induction l with
  | nil => simp at hmem
  | cons e l ih =>
    simp only [List.map_cons, List.nodup_cons] at hnd
    by_cases he : e.1 = r
    · have hnot : ∀ x ∈ l, x.1 ≠ r := by
        intro x hx hxr
        apply hnd.1
        rw [he, ← hxr]
        exact List.mem_map_of_mem Prod.fst hx
      have hall : l.filter (fun h => h.1 ≠ r) = l := by
        rw [List.filter_eq_self]
        intro x hx
        simpa using hnot x hx
      have hf : (e :: l).filter (fun h => h.1 ≠ r) = l.filter (fun h => h.1 ≠ r) := by
        apply List.filter_cons_of_neg
        simp [he]
      rw [hf, hall]
      simp
    · have hm : (r, b) ∈ l := by
        rcases List.mem_cons.mp hmem with h | h
        · exact absurd (by rw [← h]) he
        · exact h
      have hpos : 0 < l.length := List.length_pos_of_mem hm
      simp only [List.filter_cons, ne_eq, he, not_false_eq_true, decide_True, if_true,
        List.length_cons, ih hnd.2 hm]
      omega

theorem boardInv_init : BoardInv sysInit :=
  ⟨rfl, by simp [sysInit], by simp [sysInit], by simp [sysInit], by simp [sysInit], by simp [sysInit],
    by simp [sysInit]⟩

theorem boardInv_step {s s2 : Sys} (a : Act) (h : BoardInv s) (hs : step s a = some s2) :
    BoardInv s2 := by
  cases a with
  | lock chunks =>
    simp only [Pingo.step] at hs
    split at hs
    · rename_i hg
      simp only [Option.some.injEq] at hs
      subst hs
      refine ⟨h.count, h.ids, by simp, ?_, by simp, by simp, h.sent⟩
      intro _
      have h0 : s.handlers.length = 0 := by rw [← h.count]; exact hg.2.2
      exact List.length_eq_zero.mp h0
    · simp at hs
  | reset =>
    simp only [Pingo.step] at hs
    split at hs
    · rename_i chunks hpc
      simp only [Option.some.injEq] at hs
      subst hs
      have hw : s.wlocked = true := by
        have := h.idle
        rw [hpc] at this
        simpa using this
      refine ⟨h.count, h.ids, by simp [hw], h.excl, by simp [hw], ?_, h.sent⟩
      intro c r hc
      simp only [WriterPc.executing.injEq] at hc
      rw [← hc.1, ← hc.2]
      simp
    · simp at hs
  | write =>
    simp only [Pingo.step] at hs
    split at hs
    · rename_i chunks c rest hpc
      simp only [Option.some.injEq] at hs
      subst hs
      have hw : s.wlocked = true := by
        have := h.idle
        rw [hpc] at this
        simpa using this
      refine ⟨h.count, h.ids, by simp [hw], h.excl, by simp [hw], ?_, h.sent⟩
      intro c2 r2 hc
      simp only [WriterPc.executing.injEq] at hc
      have hb := h.building chunks (c :: rest) hpc
      rw [← hc.1, ← hc.2]
      simpa [joinChunks, String.append_assoc] using hb
    · simp at hs
  | unlock =>
    simp only [Pingo.step] at hs
    split at hs
    · rename_i chunks hpc
      simp only [Option.some.injEq] at hs
      subst hs
      have hw : s.wlocked = true := by
        have := h.idle
        rw [hpc] at this
        simpa using this
      have hb := h.building chunks [] hpc
      refine ⟨h.count, h.ids, by simp, by simp, ?_, by simp, ?_⟩
      · intro _
        simp only [List.getLastD_eq_getLast?, List.getLast?_append, List.getLast?_singleton]
        simpa [joinChunks] using hb
      · intro x hx
        obtain ⟨h1, h2⟩ := h.sent x hx
        refine ⟨?_, ?_⟩
        · simp only [List.length_append, List.length_singleton]
          exact Nat.le_succ_of_le h1
        · rw [List.take_append_of_le_length h1]
          exact h2
    · simp at hs
  | rlock r =>
    simp only [Pingo.step] at hs
    split at hs
    · rename_i hg
      simp only [Option.some.injEq] at hs
      subst hs
      refine ⟨by simp [h.count], ?_, h.idle, ?_, h.stable, h.building, h.sent⟩
      · simp only [List.map_cons, List.nodup_cons]
        exact ⟨hg.2, h.ids⟩
      intro hw
      have hw2 : s.wlocked = true := hw
      rw [hg.1] at hw2
      exact absurd hw2 (by decide)
    · simp at hs
  | send r =>
    simp only [Pingo.step] at hs
    split at hs
    · rename_i hg
      simp only [Option.some.injEq] at hs
      subst hs
      have hw : s.wlocked = false := by
        cases hw : s.wlocked with
        | false => rfl
        | true =>
          have := h.excl hw
          rw [this] at hg
          simp at hg
      have hmap : (s.handlers.map (fun h => if h.1 = r then (r, true) else h)).map Prod.fst =
          s.handlers.map Prod.fst := by
        rw [List.map_map]
        apply List.map_congr_left
        intro e _
        by_cases he : e.1 = r <;> simp [he]
      refine ⟨by simp [h.count], by rw [hmap]; exact h.ids, h.idle, ?_, h.stable, h.building, ?_⟩
      · intro hw2
        have hw3 : s.wlocked = true := hw2
        rw [hw] at hw3
        exact absurd hw3 (by decide)
      · intro x hx
        simp only [List.mem_append, List.mem_singleton] at hx
        rcases hx with hx | hx
        · exact h.sent x hx
        · subst hx
          refine ⟨le_refl _, ?_⟩
          simp only [List.take_length]
          exact h.stable hw
    · simp at hs
  | runlock r =>
    simp only [Pingo.step] at hs
    split at hs
    · rename_i hg
      simp only [Option.some.injEq] at hs
      subst hs
      have hw : s.wlocked = false := by
        cases hw : s.wlocked with
        | false => rfl
        | true =>
          have := h.excl hw
          rw [this] at hg
          simp at hg
      refine ⟨?_, ?_, h.idle, ?_, h.stable, h.building, h.sent⟩
      · show s.rcount - 1 = (s.handlers.filter (fun h => h.1 ≠ r)).length
        rw [handlers_filter_length _ r true h.ids hg, h.count]
      · show ((s.handlers.filter (fun h => h.1 ≠ r)).map Prod.fst).Nodup
        exact (h.ids.sublist (List.Sublist.map _ (List.filter_sublist _)))
      · intro hw2
        have hw3 : s.wlocked = true := hw2
        rw [hw] at hw3
        exact absurd hw3 (by decide)
    · simp at hs

theorem boardInv_run {s s2 : Sys} (acts : List Act) (h : BoardInv s)
    (hs : runFrom s acts = some s2) : BoardInv s2 := by
  induction acts generalizing s with
  | nil =>
    simp only [runFrom, Option.some.injEq] at hs
    rw [← hs]
    exact h
  | cons a rest ih =>
    simp only [runFrom] at hs
    split at hs
    · rename_i s1 h1
      exact ih (boardInv_step a h h1) hs
    · simp at hs

theorem published_take_mem (l : List String) (n : Nat) :
    (l.take n).getLastD "" = "" ∨ (l.take n).getLastD "" ∈ l := by
  rcases List.eq_nil_or_concat (l.take n) with h | ⟨ys, y, hy⟩
  · left
    rw [h]
    rfl
  · right
    rw [hy]
    have hy2 : y ∈ l.take n := by rw [hy]; simp
    have : (ys.concat y).getLastD "" = y := by simp [List.getLastD_eq_getLast?]
    rw [this]
    exact List.mem_of_mem_take hy2

/-- C9: for every interleaving of the actions of collect on the Board (Lock,
Reset, the writes of the template, Unlock) with those of any number of handlers
of `/metrics` (RLock, Write of the bytes of the Board, RUnlock), the bytes a
handler sends are the complete rendering of the last publish tick that had
finished when it sent them, or empty when none had: never a part of a rendering
nor a mix of two. -/
theorem board_reader_gets_complete_report (acts : List Act) (s : Sys)
    (hrun : runFrom sysInit acts = some s) :
    ∀ x ∈ s.received, x.gen ≤ s.published.length ∧
      x.bytes = (s.published.take x.gen).getLastD "" ∧
      (x.bytes = "" ∨ x.bytes ∈ s.published) := by
  intro x hx
  obtain ⟨h1, h2⟩ := (boardInv_run acts boardInv_init hrun).sent x hx
  refine ⟨h1, h2, ?_⟩
  rw [h2]
  exact published_take_mem _ _

/-- C9 at a concrete schedule: a handler reads before the first tick, a second
one reads after a tick whose rendering was written in two pieces; a schedule in
which the second handler takes the read lock while `t.Execute` runs is not one
the RWMutex allows. -/
theorem board_reader_gets_complete_report_witness :
    runFrom sysInit [Act.lock ["pingo_reply 1", " pingo_lost 0"], Act.reset, Act.write,
        Act.rlock 2] = none ∧
      runFrom sysInit [Act.rlock 1, Act.send 1, Act.runlock 1,
        Act.lock ["pingo_reply 1", " pingo_lost 0"], Act.reset, Act.write, Act.write,
        Act.unlock, Act.rlock 2, Act.send 2, Act.runlock 2] =
          some ⟨"pingo_reply 1 pingo_lost 0", false, 0, WriterPc.idle, [],
            ["pingo_reply 1 pingo_lost 0"],
            [⟨1, "", 0⟩, ⟨2, "pingo_reply 1 pingo_lost 0", 1⟩]⟩ ∧
      ∀ x ∈ [(⟨1, "", 0⟩ : Received), ⟨2, "pingo_reply 1 pingo_lost 0", 1⟩],
        x.gen ≤ ["pingo_reply 1 pingo_lost 0"].length ∧
          x.bytes = (["pingo_reply 1 pingo_lost 0"].take x.gen).getLastD "" ∧
          (x.bytes = "" ∨ x.bytes ∈ ["pingo_reply 1 pingo_lost 0"]) :=
  ⟨by decide, by decide,
    board_reader_gets_complete_report
      [Act.rlock 1, Act.send 1, Act.runlock 1,
        Act.lock ["pingo_reply 1", " pingo_lost 0"], Act.reset, Act.write, Act.write,
        Act.unlock, Act.rlock 2, Act.send 2, Act.runlock 2]
      ⟨"pingo_reply 1 pingo_lost 0", false, 0, WriterPc.idle, [],
        ["pingo_reply 1 pingo_lost 0"],
        [⟨1, "", 0⟩, ⟨2, "pingo_reply 1 pingo_lost 0", 1⟩]⟩ (by decide)⟩

end Pingo
